import Mathlib

/-!
Shallow embedding of the `intrusive_splay_tree` crate (src/src/internal.rs and
src/src/lib.rs).  The imperative, pointer-rewiring code is embedded as pure
functions on an explicit binary-tree value: each `Cell` write of the original
becomes the construction of the corresponding subtree.

The "simple top-down splay" loop (`SplayTree::splay`, internal.rs lines
182-248) keeps two partially built trees rooted at a sentinel `null` node and
grows them by mutating the `left.right` / `right.left` cells.  Functionally,
each `right.left.set(Some(current)); right = current` ("link right") pushes the
pair `(current's element, current's right subtree)` onto an accumulator list
whose hole is the left child, and symmetrically for "link left"; the final
"assemble" step plugs the remaining subtrees into the innermost holes.
-/

namespace IST

inductive Tree (α : Type) where
  | nil : Tree α
  | node : Tree α → α → Tree α → Tree α
deriving Repr, DecidableEq

namespace Tree

variable {α : Type}

def size : Tree α → Nat
  | nil => 0
  | node l _ r => l.size + r.size + 1

/-- Modelled from the spec: the `Node` type and its `walk` method live in
`node.rs`, which is not present under `src/`; per spec §4.2 ("walk(visitor) —
in-order traversal") and §8 ("an in-order walk"), the observable content of a
full walk is the in-order element sequence. -/
def inorder : Tree α → List α
  | nil => []
  | node l x r => inorder l ++ x :: inorder r

/-- `SplayTree::root` (internal.rs line 68): the root element, if any. -/
def root? : Tree α → Option α
  | nil => none
  | node _ x _ => some x

end Tree

open Tree

variable {α : Type}

/-- The left accumulator of the top-down splay: a list of `(element, left
subtree)` pieces, most recent first; the hole of each piece is its right
child (`left.right.set` plugs it).  `mkLeft` plugs `cl` into the innermost
hole and rebuilds the accumulated tree. -/
def mkLeft (cl : Tree α) (ls : List (α × Tree α)) : Tree α :=
  ls.foldl (fun acc p => .node p.2 p.1 acc) cl

/-- The right accumulator: pieces `(element, right subtree)` whose hole is the
left child (`right.left.set` plugs it). -/
def mkRight (cr : Tree α) (rs : List (α × Tree α)) : Tree α :=
  rs.foldl (fun acc p => .node acc p.1 p.2) cr

/-- The loop of `SplayTree::splay` (internal.rs lines 193-239) together with
the final assembly (lines 241-247).  `x`, `a`, `b` are the element, left and
right subtree of `current`; `ls`, `rs` are the two accumulators.  Returns the
final root decomposition `(left subtree, element, right subtree)` of the new
root (lines 242-247 set exactly these three). -/
def splayGo (cmp : α → Ordering) (x : α) (a b : Tree α)
    (ls rs : List (α × Tree α)) : Tree α × α × Tree α :=
  match cmp x with
  | .lt =>
    match a with
    | .nil => (mkLeft .nil ls, x, mkRight b rs)
    | .node a1 y a2 =>
      match cmp y with
      | .lt =>
        -- Rotate right (internal.rs lines 200-203): current becomes
        -- `node a1 y (node a2 x b)`.
        match a1 with
        | .nil => (mkLeft .nil ls, y, mkRight (.node a2 x b) rs)
        | .node a11 z a12 =>
          -- Link right and descend into `a1`.
          splayGo cmp z a11 a12 ls ((y, .node a2 x b) :: rs)
      | _ =>
        -- Link right (lines 209-212) without rotation.
        splayGo cmp y a1 a2 ls ((x, b) :: rs)
  | .gt =>
    match b with
    | .nil => (mkLeft a ls, x, mkRight .nil rs)
    | .node b1 y b2 =>
      match cmp y with
      | .gt =>
        -- Rotate left (lines 221-224): current becomes
        -- `node (node a x b1) y b2`.
        match b2 with
        | .nil => (mkLeft (.node a x b1) ls, y, mkRight .nil rs)
        | .node b21 z b22 =>
          -- Link left and descend into `b2`.
          splayGo cmp z b21 b22 ((y, .node a x b1) :: ls) rs
      | _ =>
        -- Link left (lines 230-233) without rotation.
        splayGo cmp y b1 b2 ((x, a) :: ls) rs
  | .eq => (mkLeft a ls, x, mkRight b rs)
termination_by a.size + b.size
decreasing_by
  all_goals simp [Tree.size]
  all_goals omega

/-- `SplayTree::splay` on the root of a (nonempty) tree; on `nil` it is never
called by the source, so `nil` maps to `nil`. -/
def splay (cmp : α → Ordering) : Tree α → Tree α
  | .nil => .nil
  | .node a x b =>
    let p := splayGo cmp x a b [] []
    .node p.1 p.2.1 p.2.2

/-- `SplayTree::find` (internal.rs lines 72-85): splay, then return the root
only if it compares `Equal`.  The second component is the tree after the
call (the splay restructures it either way). -/
def find (cmp : α → Ordering) : Tree α → Option α × Tree α
  | .nil => (none, .nil)
  | .node a x b =>
    let p := splayGo cmp x a b [] []
    if cmp p.2.1 = .eq then (some p.2.1, .node p.1 p.2.1 p.2.2)
    else (none, .node p.1 p.2.1 p.2.2)

/-- Result of `SplayTree::insert` (internal.rs lines 87-117).  `nodeLeft` and
`nodeRight` are the final values of the inserted node's two slots (which the
caller guarantees are empty on entry, line 89); on the refusal path the node
is never touched, so they stay `nil`. -/
structure InsertResult (α : Type) where
  inserted : Bool
  tree : Tree α
  nodeLeft : Tree α
  nodeRight : Tree α
deriving Repr, DecidableEq

/-- `SplayTree::insert` (internal.rs lines 87-117).  On a nonempty tree, splay
on the key; `Equal` refuses; `Less` sets `node.left := root.left`,
`node.right := root` and clears `root.left` (so the node's right child is
`node nil y r`); `Greater` symmetrically. -/
def insert (cmp : α → Ordering) (e : α) : Tree α → InsertResult α
  | .nil => ⟨true, .node .nil e .nil, .nil, .nil⟩
  | .node a x b =>
    let p := splayGo cmp x a b [] []
    match cmp p.2.1 with
    | .eq => ⟨false, .node p.1 p.2.1 p.2.2, .nil, .nil⟩
    | .lt => ⟨true, .node p.1 e (.node .nil p.2.1 p.2.2), p.1, .node .nil p.2.1 p.2.2⟩
    | .gt => ⟨true, .node (.node p.1 p.2.1 .nil) e p.2.2, .node p.1 p.2.1 .nil, p.2.2⟩

/-- The `MinNode` comparator (internal.rs lines 29-34): always `Less`. -/
def minCmp : α → Ordering := fun _ => .lt

/-- The `MaxNode` comparator (internal.rs lines 37-42): always `Greater`. -/
def maxCmp : α → Ordering := fun _ => .gt

/-- `SplayTree::min` (internal.rs lines 119-123): splay with the always-`Less`
comparator; the new root is the minimum. -/
def minT : Tree α → Option α × Tree α
  | .nil => (none, .nil)
  | .node a x b =>
    let p := splayGo minCmp x a b [] []
    (some p.2.1, .node p.1 p.2.1 p.2.2)

/-- `SplayTree::max` (internal.rs lines 131-135). -/
def maxT : Tree α → Option α × Tree α
  | .nil => (none, .nil)
  | .node a x b =>
    let p := splayGo maxCmp x a b [] []
    (some p.2.1, .node p.1 p.2.1 p.2.2)

/-- A node handed back by `pop_root`/`remove`: its element together with the
final values of its two slots at the moment the call returns (internal.rs
lines 160-162 clear both before returning). -/
structure Removed (α : Type) where
  elem : α
  left : Tree α
  right : Tree α
deriving Repr, DecidableEq

/-- `SplayTree::pop_root` (internal.rs lines 143-163).  If the old root has a
left subtree, splay that subtree to its maximum and overwrite the splayed
root's right slot with the old root's right subtree; otherwise the right
subtree becomes the tree.  The old root's slots are cleared (lines 160-161)
before it is returned. -/
def popRoot : Tree α → Option (Removed α) × Tree α
  | .nil => (none, .nil)
  | .node a x b =>
    let t' : Tree α :=
      match a with
      | .nil => b
      | .node a1 y a2 =>
        let p := splayGo maxCmp y a1 a2 [] []
        -- `.right.set(old_root_right)` (line 150-153) overwrites the splayed
        -- root's right slot with `b`, discarding `p.2.2`.
        .node p.1 p.2.1 b
    (some ⟨x, .nil, .nil⟩, t')

/-- `SplayTree::pop_min` (internal.rs lines 126-129): `self.min()?;
self.pop_root()`. -/
def popMin (t : Tree α) : Option (Removed α) × Tree α :=
  match minT t with
  | (none, t') => (none, t')
  | (some _, t') => popRoot t'

/-- `SplayTree::pop_max` (internal.rs lines 138-141): `self.max()?;
self.pop_root()`. -/
def popMax (t : Tree α) : Option (Removed α) × Tree α :=
  match maxT t with
  | (none, t') => (none, t')
  | (some _, t') => popRoot t'

/-- `SplayTree::remove` (internal.rs lines 165-173): splay on the key; if the
new root compares `Equal`, pop it, else return `None` (the tree stays
restructured by the splay). -/
def remove (cmp : α → Ordering) : Tree α → Option (Removed α) × Tree α
  | .nil => (none, .nil)
  | .node a x b =>
    let p := splayGo cmp x a b [] []
    if cmp p.2.1 = .eq then popRoot (.node p.1 p.2.1 p.2.2)
    else (none, .node p.1 p.2.1 p.2.2)

/-!
The typed facade (src/src/lib.rs).  A tree with element type `α` and an index
tag whose ordering is induced by a key projection `key : α → K` into a linear
order; a probe key `q : K` is compared to the element behind a node by
`TreeOrd::tree_cmp`, i.e. `cmp3 q (key e)` (`Ord::cmp` on `K`).
-/

/-- Three-way comparison on a linear order, as Rust's `Ord::cmp` of the probe
key against the element's key. -/
def cmp3 {K : Type} [LinearOrder K] (q k : K) : Ordering :=
  if q < k then .lt else if k < q then .gt else .eq

variable {K : Type} [LinearOrder K]

/-- The erased comparator built by the facade's `Query` adapter (lib.rs lines
117-128): compare the probe key to the key of the element behind the node. -/
def keyCmp (key : α → K) (q : K) : α → Ordering :=
  fun e => cmp3 q (key e)

/-- `SplayTree::find` at the facade level (lib.rs lines 234-243). -/
def findK (key : α → K) (q : K) (t : Tree α) : Option α × Tree α :=
  find (keyCmp key q) t

/-- `SplayTree::insert` at the facade level (lib.rs lines 263-279): the query
is the element itself, compared by key. -/
def insertK (key : α → K) (e : α) (t : Tree α) : InsertResult α :=
  insert (keyCmp key (key e)) e t

/-- `SplayTree::remove` at the facade level (lib.rs lines 292-301). -/
def removeK (key : α → K) (q : K) (t : Tree α) : Option (Removed α) × Tree α :=
  remove (keyCmp key q) t

/-- Insert a list of elements left to right (as `Extend::extend`, lib.rs
lines 180-186). -/
def insertList (key : α → K) (S : List α) (t : Tree α) : Tree α :=
  S.foldl (fun t e => (insertK key e t).tree) t

/-- The BST invariant: the in-order walk is strictly increasing in key. -/
def Sorted (key : α → K) (t : Tree α) : Prop :=
  t.inorder.Pairwise fun u v => key u < key v

/-!  In-order characterisation of the accumulators and of the splay loop. -/

/-- The in-order sequence sitting to the left of the hole of the left
accumulator (most recent piece innermost). -/
def leftFlat : List (α × Tree α) → List α
  | [] => []
  | p :: ls => leftFlat ls ++ (p.2.inorder ++ [p.1])

/-- The in-order sequence sitting to the right of the hole of the right
accumulator. -/
def rightFlat : List (α × Tree α) → List α
  | [] => []
  | p :: rs => p.1 :: (p.2.inorder ++ rightFlat rs)

/-!  Operation sequences over one tree (for the order invariant and the
pop-min/pop-max exhaustion properties). -/

/-- One mutating operation at the facade level: insert an element, or remove
by probe key. -/
inductive Op (α K : Type) where
  | ins : α → Op α K
  | del : K → Op α K

/-- Apply one operation to a tree. -/
def applyOp {K : Type} [LinearOrder K] (key : α → K) : Op α K → Tree α → Tree α
  | .ins e, t => (insertK key e t).tree
  | .del q, t => (removeK key q t).2

/-- Apply a sequence of operations, left to right. -/
def applyOps {K : Type} [LinearOrder K] (key : α → K) (ops : List (Op α K))
    (t : Tree α) : Tree α :=
  ops.foldl (fun t op => applyOp key op t) t

/-- Repeatedly call `pop_min` until the tree is empty (or the fuel runs out),
collecting the popped elements. -/
def popMinSeq : Nat → Tree α → List α
  | 0, _ => []
  | n + 1, t =>
    match popMin t with
    | (none, _) => []
    | (some rem, t') => rem.elem :: popMinSeq n t'

/-- Repeatedly call `pop_max` until the tree is empty, collecting the popped
elements. -/
def popMaxSeq : Nat → Tree α → List α
  | 0, _ => []
  | n + 1, t =>
    match popMax t with
    | (none, _) => []
    | (some rem, t') => rem.elem :: popMaxSeq n t'

/-!
Store-level model of two co-located indices (for the independence /
frame property).  A record embeds two link nodes (`tests/all/multiple.rs`:
`Multiple { by_x: Node, by_y: Node, .. }`); the erased engine works on one of
them through the projection generated by `impl_intrusive_node!`.  Nodes are
identified by `Nat` ids; a store maps each id to its record's two slot pairs.
The engine is written once, parameterized by a lens selecting which embedded
node it rewires — mirroring how `internal.rs` is written once against
`CompareToNode` and node references.  Recursion is fueled, since the
pointer-chasing loop of `splay` has no structural termination argument on an
arbitrary store.
-/

/-- The two optional child ids of one link node (`Node { left, right }`). -/
abbrev Slots : Type := Option Nat × Option Nat

/-- A record with two embedded link nodes, one per index tag. -/
structure Rec2 where
  sx : Slots
  sy : Slots
deriving DecidableEq, Repr

/-- Projection/update pair for one tag's embedded node within a record. -/
structure Lens where
  get : Rec2 → Slots
  set : Slots → Rec2 → Rec2

/-- The first tag's node (field `by_x`). -/
def lensX : Lens := ⟨fun r => r.sx, fun s r => { r with sx := s }⟩

/-- The second tag's node (field `by_y`). -/
def lensY : Lens := ⟨fun r => r.sy, fun s r => { r with sy := s }⟩

/-- The heap: record state per node id. -/
abbrev Store : Type := Nat → Rec2

/-- Read the left slot (`node.left.get()`). -/
def rdL (L : Lens) (σ : Store) (i : Nat) : Option Nat := (L.get (σ i)).1

/-- Read the right slot (`node.right.get()`). -/
def rdR (L : Lens) (σ : Store) (i : Nat) : Option Nat := (L.get (σ i)).2

/-- Write the left slot (`node.left.set(v)`). -/
def wrL (L : Lens) (σ : Store) (i : Nat) (v : Option Nat) : Store :=
  fun j => if j = i then L.set (v, (L.get (σ i)).2) (σ i) else σ j

/-- Write the right slot (`node.right.set(v)`). -/
def wrR (L : Lens) (σ : Store) (i : Nat) (v : Option Nat) : Store :=
  fun j => if j = i then L.set ((L.get (σ i)).1, v) (σ i) else σ j

/-- The assembly step of `splay` (internal.rs lines 241-247), with `nl` the
sentinel null node's id and `lf`/`rt` the bottoms of the two accumulator
chains. -/
def assembleS (L : Lens) (nl cur lf rt : Nat) (σ : Store) : Nat × Store :=
  let σ1 := wrR L σ lf (rdL L σ cur)
  let σ2 := wrL L σ1 rt (rdR L σ1 cur)
  let σ3 := wrL L σ2 cur (rdR L σ2 nl)
  let σ4 := wrR L σ3 cur (rdL L σ3 nl)
  (cur, σ4)

/-- The loop of `splay` (internal.rs lines 193-239) on the store, fueled.
`cur` is `current`, `lf`/`rt` the current accumulator bottoms. -/
def splayS (L : Lens) (cmp : Nat → Ordering) (nl : Nat) :
    Nat → Nat → Nat → Nat → Store → Option (Nat × Store)
  | 0, _, _, _, _ => none
  | fuel + 1, cur, lf, rt, σ =>
    match cmp cur with
    | .lt =>
      match rdL L σ cur with
      | none => some (assembleS L nl cur lf rt σ)
      | some curL =>
        match cmp curL with
        | .lt =>
          -- Rotate right.
          let σ1 := wrL L σ cur (rdR L σ curL)
          let σ2 := wrR L σ1 curL (some cur)
          match rdL L σ2 curL with
          | none => some (assembleS L nl curL lf rt σ2)
          | some cl2 =>
            -- Link right.
            let σ3 := wrL L σ2 rt (some curL)
            splayS L cmp nl fuel cl2 lf curL σ3
        | _ =>
          -- Link right.
          let σ1 := wrL L σ rt (some cur)
          splayS L cmp nl fuel curL lf cur σ1
    | .gt =>
      match rdR L σ cur with
      | none => some (assembleS L nl cur lf rt σ)
      | some curR =>
        match cmp curR with
        | .gt =>
          -- Rotate left.
          let σ1 := wrR L σ cur (rdL L σ curR)
          let σ2 := wrL L σ1 curR (some cur)
          match rdR L σ2 curR with
          | none => some (assembleS L nl curR lf rt σ2)
          | some cr2 =>
            -- Link left.
            let σ3 := wrR L σ2 lf (some curR)
            splayS L cmp nl fuel cr2 curR rt σ3
        | _ =>
          -- Link left.
          let σ1 := wrR L σ lf (some cur)
          splayS L cmp nl fuel curR cur rt σ1
    | .eq => some (assembleS L nl cur lf rt σ)

/-- `splay` entry (internal.rs lines 184-192): allocate the fresh `null`
sentinel (both slots empty) and start the loop with both accumulators at
`null`.  `nl` is the id reserved for the sentinel. -/
def splayRootS (L : Lens) (cmp : Nat → Ordering) (nl fuel root : Nat)
    (σ : Store) : Option (Nat × Store) :=
  splayS L cmp nl fuel root nl nl (wrR L (wrL L σ nl none) nl none)

/-- The always-`Less` comparator on ids (`MinNode`). -/
def minCmpN : Nat → Ordering := fun _ => .lt

/-- The always-`Greater` comparator on ids (`MaxNode`). -/
def maxCmpN : Nat → Ordering := fun _ => .gt

/-- Store-level `find` (internal.rs lines 72-85): returns
`(found, new root, store)`; `none` on fuel exhaustion. -/
def findS (L : Lens) (cmp : Nat → Ordering) (nl fuel : Nat)
    (rt? : Option Nat) (σ : Store) : Option (Option Nat × Option Nat × Store) :=
  match rt? with
  | none => some (none, none, σ)
  | some r =>
    match splayRootS L cmp nl fuel r σ with
    | none => none
    | some (c, σ1) => some (if cmp c = .eq then some c else none, some c, σ1)

/-- Store-level `insert` (internal.rs lines 87-117): returns
`(inserted, new root, store)`. -/
def insertS (L : Lens) (cmp : Nat → Ordering) (nl fuel : Nat)
    (rt? : Option Nat) (nd : Nat) (σ : Store) :
    Option (Bool × Option Nat × Store) :=
  match rt? with
  | none => some (true, some nd, σ)
  | some r =>
    match splayRootS L cmp nl fuel r σ with
    | none => none
    | some (c, σ1) =>
      match cmp c with
      | .eq => some (false, some c, σ1)
      | .lt =>
        let σ2 := wrL L σ1 nd (rdL L σ1 c)
        let σ3 := wrR L σ2 nd (some c)
        let σ4 := wrL L σ3 c none
        some (true, some nd, σ4)
      | .gt =>
        let σ2 := wrR L σ1 nd (rdR L σ1 c)
        let σ3 := wrL L σ2 nd (some c)
        let σ4 := wrR L σ3 c none
        some (true, some nd, σ4)

/-- Store-level `pop_root` (internal.rs lines 143-163): returns
`(popped, new root, store)`. -/
def popRootS (L : Lens) (nl fuel : Nat) (rt? : Option Nat) (σ : Store) :
    Option (Option Nat × Option Nat × Store) :=
  match rt? with
  | none => some (none, none, σ)
  | some r =>
    match rdL L σ r with
    | some rl =>
      let rr := rdR L σ r
      match splayRootS L maxCmpN nl fuel rl σ with
      | none => none
      | some (m, σ1) =>
        let σ2 := wrR L σ1 m rr
        let σ3 := wrL L σ2 r none
        let σ4 := wrR L σ3 r none
        some (some r, some m, σ4)
    | none =>
      let newroot := rdR L σ r
      let σ3 := wrL L σ r none
      let σ4 := wrR L σ3 r none
      some (some r, newroot, σ4)

/-- Store-level `remove` (internal.rs lines 165-173). -/
def removeS (L : Lens) (cmp : Nat → Ordering) (nl fuel : Nat)
    (rt? : Option Nat) (σ : Store) : Option (Option Nat × Option Nat × Store) :=
  match rt? with
  | none => some (none, none, σ)
  | some r =>
    match splayRootS L cmp nl fuel r σ with
    | none => none
    | some (c, σ1) =>
      if cmp c = .eq then popRootS L nl fuel (some c) σ1
      else some (none, some c, σ1)

/-- Store-level `min` (internal.rs lines 119-123). -/
def minS (L : Lens) (nl fuel : Nat) (rt? : Option Nat) (σ : Store) :
    Option (Option Nat × Option Nat × Store) :=
  match rt? with
  | none => some (none, none, σ)
  | some r =>
    match splayRootS L minCmpN nl fuel r σ with
    | none => none
    | some (c, σ1) => some (some c, some c, σ1)

/-- Store-level `max` (internal.rs lines 131-135). -/
def maxS (L : Lens) (nl fuel : Nat) (rt? : Option Nat) (σ : Store) :
    Option (Option Nat × Option Nat × Store) :=
  match rt? with
  | none => some (none, none, σ)
  | some r =>
    match splayRootS L maxCmpN nl fuel r σ with
    | none => none
    | some (c, σ1) => some (some c, some c, σ1)

/-- Modelled from the spec: store-level `walk` — `Node::walk` lives in the
absent `node.rs`; per spec §4.2 it is a read-only in-order traversal.
Fueled; returns the visited ids. -/
def walkS (L : Lens) : Nat → Option Nat → Store → Option (List Nat)
  | 0, _, _ => none
  | _ + 1, none, _ => some []
  | fuel + 1, some i, σ =>
    match walkS L fuel (rdL L σ i) σ, walkS L fuel (rdR L σ i) σ with
    | some ll, some rr => some (ll ++ i :: rr)
    | _, _ => none

/-- The observable result of a store-level query: the returned id and the new
root, without the store. -/
def qres (o : Option (Option Nat × Option Nat × Store)) :
    Option (Option Nat × Option Nat) :=
  o.map fun t => (t.1, t.2.1)

theorem inorder_mkLeft (ls : List (α × Tree α)) (cl : Tree α) :
    (mkLeft cl ls).inorder = leftFlat ls ++ cl.inorder := by
  induction ls generalizing cl with
  | nil => simp [mkLeft, leftFlat]
  | cons p ls ih =>
    show (mkLeft (.node p.2 p.1 cl) ls).inorder = _
    rw [ih]
    simp [leftFlat, Tree.inorder]

theorem inorder_mkRight (rs : List (α × Tree α)) (cr : Tree α) :
    (mkRight cr rs).inorder = cr.inorder ++ rightFlat rs := by
  induction rs generalizing cr with
  | nil => simp [mkRight, rightFlat]
  | cons p rs ih =>
    show (mkRight (.node cr p.1 p.2) rs).inorder = _
    rw [ih]
    simp [rightFlat, Tree.inorder]

/-!  Unfolding equations for `splayGo`, one per reachable branch of the loop.
The automatically generated equations `splayGo.eq_1` .. `splayGo.eq_9` are
split by the shapes of `a`'s left child and `b`'s right child; the lemmas
below recombine them into one equation per branch of the source loop. -/

variable {cmp : α → Ordering} {x y z : α}
variable {a b a1 a2 a11 a12 b1 b2 b21 b22 : Tree α}
variable {ls rs : List (α × Tree α)}

theorem splayGo_eq (h : cmp x = .eq) :
    splayGo cmp x a b ls rs = (mkLeft a ls, x, mkRight b rs) := by
  rcases a with _ | ⟨_ | ⟨a11, za, a12⟩, ya, a2⟩ <;>
    rcases b with _ | ⟨b1, yb, _ | ⟨b21, zb, b22⟩⟩ <;>
    simp only [splayGo.eq_1, splayGo.eq_2, splayGo.eq_3, splayGo.eq_4, splayGo.eq_5,
      splayGo.eq_6, splayGo.eq_7, splayGo.eq_8, splayGo.eq_9, h]

theorem splayGo_lt_nil (h : cmp x = .lt) :
    splayGo cmp x .nil b ls rs = (mkLeft .nil ls, x, mkRight b rs) := by
  rcases b with _ | ⟨b1, yb, _ | ⟨b21, zb, b22⟩⟩ <;>
    simp only [splayGo.eq_1, splayGo.eq_2, splayGo.eq_3, h]

theorem splayGo_lt_zz_nil (hx : cmp x = .lt) (hy : cmp y = .lt) :
    splayGo cmp x (.node .nil y a2) b ls rs
      = (mkLeft .nil ls, y, mkRight (.node a2 x b) rs) := by
  rcases b with _ | ⟨b1, yb, _ | ⟨b21, zb, b22⟩⟩ <;>
    simp only [splayGo.eq_4, splayGo.eq_5, splayGo.eq_6, hx, hy]

theorem splayGo_lt_zz (hx : cmp x = .lt) (hy : cmp y = .lt) :
    splayGo cmp x (.node (.node a11 z a12) y a2) b ls rs
      = splayGo cmp z a11 a12 ls ((y, .node a2 x b) :: rs) := by
  rcases b with _ | ⟨b1, yb, _ | ⟨b21, zb, b22⟩⟩ <;>
    simp only [splayGo.eq_7, splayGo.eq_8, splayGo.eq_9, hx, hy]

theorem splayGo_lt_link (hx : cmp x = .lt) (hy : cmp y ≠ .lt) :
    splayGo cmp x (.node a1 y a2) b ls rs
      = splayGo cmp y a1 a2 ls ((x, b) :: rs) := by
  rcases hcy : cmp y with _ | _ | _
  · exact absurd hcy hy
  all_goals
    rcases a1 with _ | ⟨a11, za, a12⟩ <;>
      rcases b with _ | ⟨b1, yb, _ | ⟨b21, zb, b22⟩⟩ <;>
      simp only [splayGo.eq_4, splayGo.eq_5, splayGo.eq_6, splayGo.eq_7,
        splayGo.eq_8, splayGo.eq_9, hx, hcy]

theorem splayGo_gt_nil (h : cmp x = .gt) :
    splayGo cmp x a .nil ls rs = (mkLeft a ls, x, mkRight .nil rs) := by
  rcases a with _ | ⟨_ | ⟨a11, za, a12⟩, ya, a2⟩ <;>
    simp only [splayGo.eq_1, splayGo.eq_4, splayGo.eq_7, h]

theorem splayGo_gt_zz_nil (hx : cmp x = .gt) (hy : cmp y = .gt) :
    splayGo cmp x a (.node b1 y .nil) ls rs
      = (mkLeft (.node a x b1) ls, y, mkRight .nil rs) := by
  rcases a with _ | ⟨_ | ⟨a11, za, a12⟩, ya, a2⟩ <;>
    simp only [splayGo.eq_2, splayGo.eq_5, splayGo.eq_8, hx, hy]

theorem splayGo_gt_zz (hx : cmp x = .gt) (hy : cmp y = .gt) :
    splayGo cmp x a (.node b1 y (.node b21 z b22)) ls rs
      = splayGo cmp z b21 b22 ((y, .node a x b1) :: ls) rs := by
  rcases a with _ | ⟨_ | ⟨a11, za, a12⟩, ya, a2⟩ <;>
    simp only [splayGo.eq_3, splayGo.eq_6, splayGo.eq_9, hx, hy]

theorem splayGo_gt_link (hx : cmp x = .gt) (hy : cmp y ≠ .gt) :
    splayGo cmp x a (.node b1 y b2) ls rs
      = splayGo cmp y b1 b2 ((x, a) :: ls) rs := by
  rcases hcy : cmp y with _ | _ | _
  case gt => exact absurd hcy hy
  all_goals
    rcases a with _ | ⟨_ | ⟨a11, za, a12⟩, ya, a2⟩ <;>
      rcases b2 with _ | ⟨b21, zb, b22⟩ <;>
      simp only [splayGo.eq_2, splayGo.eq_3, splayGo.eq_5, splayGo.eq_6,
        splayGo.eq_8, splayGo.eq_9, hx, hcy]

/-- The splay loop permutes nothing: the in-order sequence of the final root
decomposition equals the accumulated left part, the in-order sequence of the
current subtree, and the accumulated right part. -/
theorem splayGo_inorder (cmp : α → Ordering) (x : α) (a b : Tree α)
    (ls rs : List (α × Tree α)) :
    (splayGo cmp x a b ls rs).1.inorder
      ++ (splayGo cmp x a b ls rs).2.1 :: (splayGo cmp x a b ls rs).2.2.inorder
    = leftFlat ls ++ (a.inorder ++ x :: b.inorder) ++ rightFlat rs := by
  induction x, a, b, ls, rs using splayGo.induct cmp with
  | case1 x b ls rs hx =>
    rw [splayGo_lt_nil hx]
    simp [inorder_mkLeft, inorder_mkRight, leftFlat, rightFlat, Tree.inorder]
  | case2 x b ls rs hx y a2 hy =>
    rw [splayGo_lt_zz_nil hx hy]
    simp [inorder_mkLeft, inorder_mkRight, leftFlat, rightFlat, Tree.inorder]
  | case3 x b ls rs hx y a2 hy a11 z a12 ih =>
    rw [splayGo_lt_zz hx hy]
    rw [ih]
    simp [leftFlat, rightFlat, Tree.inorder]
  | case4 x b ls rs hx a1 y a2 hy ih =>
    rw [splayGo_lt_link hx hy]
    rw [ih]
    simp [leftFlat, rightFlat, Tree.inorder]
  | case5 x a ls rs hx =>
    rw [splayGo_gt_nil hx]
    simp [inorder_mkLeft, inorder_mkRight, leftFlat, rightFlat, Tree.inorder]
  | case6 x a ls rs hx b1 y hy =>
    rw [splayGo_gt_zz_nil hx hy]
    simp [inorder_mkLeft, inorder_mkRight, leftFlat, rightFlat, Tree.inorder]
  | case7 x a ls rs hx b1 y hy b21 z b22 ih =>
    rw [splayGo_gt_zz hx hy]
    rw [ih]
    simp [leftFlat, rightFlat, Tree.inorder]
  | case8 x a ls rs hx b1 y b2 hy ih =>
    rw [splayGo_gt_link hx hy]
    rw [ih]
    simp [leftFlat, rightFlat, Tree.inorder]
  | case9 x a b ls rs hx =>
    rw [splayGo_eq hx]
    simp [inorder_mkLeft, inorder_mkRight, leftFlat, rightFlat, Tree.inorder]

/-- `splay` preserves the in-order walk. -/
theorem splay_inorder (cmp : α → Ordering) (t : Tree α) :
    (splay cmp t).inorder = t.inorder := by
  cases t with
  | nil => rfl
  | node a x b =>
    have h := splayGo_inorder cmp x a b [] []
    simp [leftFlat, rightFlat] at h
    simpa [splay, Tree.inorder] using h

/-!  Basic facts about the three-way comparison. -/

section KeyCmp

variable {K : Type} [LinearOrder K] {key : α → K} {q : K} {e : α}

theorem cmp3_lt {k : K} : cmp3 q k = .lt ↔ q < k := by
  unfold cmp3
  split_ifs with h1 h2
  · simp [h1]
  · simp only [reduceCtorEq, false_iff]
    exact h1
  · simp only [reduceCtorEq, false_iff]
    exact h1

theorem cmp3_gt {k : K} : cmp3 q k = .gt ↔ k < q := by
  unfold cmp3
  split_ifs with h1 h2
  · simp only [reduceCtorEq, false_iff]
    exact asymm h1
  · simp [h2]
  · simp only [reduceCtorEq, false_iff]
    exact h2

theorem cmp3_eq {k : K} : cmp3 q k = .eq ↔ q = k := by
  unfold cmp3
  split_ifs with h1 h2
  · simp only [reduceCtorEq, false_iff]
    exact ne_of_lt h1
  · simp only [reduceCtorEq, false_iff]
    exact ne_of_gt h2
  · simp only [true_iff]
    exact le_antisymm (not_lt.mp h2) (not_lt.mp h1)

theorem keyCmp_lt (h : keyCmp key q e = .lt) : q < key e := cmp3_lt.mp h

theorem keyCmp_gt (h : keyCmp key q e = .gt) : key e < q := cmp3_gt.mp h

theorem keyCmp_eq (h : keyCmp key q e = .eq) : q = key e := cmp3_eq.mp h

theorem keyCmp_of_lt (h : q < key e) : keyCmp key q e = .lt := cmp3_lt.mpr h

theorem keyCmp_of_gt (h : key e < q) : keyCmp key q e = .gt := cmp3_gt.mpr h

theorem keyCmp_of_eq (h : q = key e) : keyCmp key q e = .eq := cmp3_eq.mpr h

end KeyCmp

/-!  The constant comparators `MinNode` / `MaxNode` never push onto the
far-side accumulator, so the splayed root's near-side child is exactly the
accumulated chain — in particular empty when the accumulator is. -/

theorem splayGo_minCmp_fst (x : α) (a b : Tree α) (ls rs : List (α × Tree α)) :
    (splayGo (minCmp : α → Ordering) x a b ls rs).1 = mkLeft .nil ls := by
  induction x, a, b, ls, rs using splayGo.induct (minCmp : α → Ordering) with
  | case1 x b ls rs hx => rw [splayGo_lt_nil hx]
  | case2 x b ls rs hx y a2 hy => rw [splayGo_lt_zz_nil hx hy]
  | case3 x b ls rs hx y a2 hy a11 z a12 ih => rw [splayGo_lt_zz hx hy]; exact ih
  | case4 x b ls rs hx a1 y a2 hy ih => exact absurd rfl hy
  | case5 x a ls rs hx => exact absurd hx (by simp [minCmp])
  | case6 x a ls rs hx b1 y hy => exact absurd hx (by simp [minCmp])
  | case7 x a ls rs hx b1 y hy b21 z b22 ih => exact absurd hx (by simp [minCmp])
  | case8 x a ls rs hx b1 y b2 hy ih => exact absurd hx (by simp [minCmp])
  | case9 x a b ls rs hx => exact absurd hx (by simp [minCmp])

theorem splayGo_maxCmp_snd (x : α) (a b : Tree α) (ls rs : List (α × Tree α)) :
    (splayGo (maxCmp : α → Ordering) x a b ls rs).2.2 = mkRight .nil rs := by
  induction x, a, b, ls, rs using splayGo.induct (maxCmp : α → Ordering) with
  | case1 x b ls rs hx => exact absurd hx (by simp [maxCmp])
  | case2 x b ls rs hx y a2 hy => exact absurd hx (by simp [maxCmp])
  | case3 x b ls rs hx y a2 hy a11 z a12 ih => exact absurd hx (by simp [maxCmp])
  | case4 x b ls rs hx a1 y a2 hy ih => exact absurd hx (by simp [maxCmp])
  | case5 x a ls rs hx => rw [splayGo_gt_nil hx]
  | case6 x a ls rs hx b1 y hy => rw [splayGo_gt_zz_nil hx hy]
  | case7 x a ls rs hx b1 y hy b21 z b22 ih => rw [splayGo_gt_zz hx hy]; exact ih
  | case8 x a ls rs hx b1 y b2 hy ih => exact absurd rfl hy
  | case9 x a b ls rs hx => exact absurd hx (by simp [maxCmp])

/-!  Pairwise bookkeeping helpers. -/

theorem pw_cons {R : α → α → Prop} {x : α} {l : List α} (h : (x :: l).Pairwise R) :
    ∀ e ∈ l, R x e := (List.pairwise_cons.mp h).1

theorem pw_tail {R : α → α → Prop} {x : α} {l : List α} (h : (x :: l).Pairwise R) :
    l.Pairwise R := (List.pairwise_cons.mp h).2

theorem pw_cross {R : α → α → Prop} {l1 l2 : List α} (h : (l1 ++ l2).Pairwise R) :
    ∀ u ∈ l1, ∀ v ∈ l2, R u v := (List.pairwise_append.mp h).2.2

theorem pw_left {R : α → α → Prop} {l1 l2 : List α} (h : (l1 ++ l2).Pairwise R) :
    l1.Pairwise R := (List.pairwise_append.mp h).1

theorem pw_right {R : α → α → Prop} {l1 l2 : List α} (h : (l1 ++ l2).Pairwise R) :
    l2.Pairwise R := (List.pairwise_append.mp h).2.1

section Partition

variable {K : Type} [LinearOrder K]

/-- The search property of the top-down splay with a key-coherent comparator
on a tree with sorted in-order walk: every element ending up left of the new
root has key `< q`, every element right of it has key `> q`. -/
theorem splayGo_partition (key : α → K) (q : K) (x : α) (a b : Tree α)
    (ls rs : List (α × Tree α))
    (hs : (a.inorder ++ x :: b.inorder).Pairwise fun u v => key u < key v)
    (hls : ∀ e ∈ leftFlat ls, key e < q)
    (hrs : ∀ e ∈ rightFlat rs, q < key e) :
    (∀ e ∈ (splayGo (keyCmp key q) x a b ls rs).1.inorder, key e < q) ∧
    (∀ e ∈ (splayGo (keyCmp key q) x a b ls rs).2.2.inorder, q < key e) := by
  revert hs hls hrs
  induction x, a, b, ls, rs using splayGo.induct (keyCmp key q) with
  | case1 x b ls rs hx =>
    intro hs hls hrs
    rw [splayGo_lt_nil hx]
    simp only [Tree.inorder, List.nil_append] at hs
    refine ⟨?_, ?_⟩
    · intro e he
      rw [inorder_mkLeft] at he
      simp only [Tree.inorder, List.append_nil] at he
      exact hls e he
    · intro e he
      rw [inorder_mkRight] at he
      rcases List.mem_append.mp he with h | h
      · exact lt_trans (keyCmp_lt hx) (pw_cons hs e h)
      · exact hrs e h
  | case2 x b ls rs hx y a2 hy =>
    intro hs hls hrs
    rw [splayGo_lt_zz_nil hx hy]
    simp only [Tree.inorder, List.nil_append, List.cons_append] at hs
    refine ⟨?_, ?_⟩
    · intro e he
      rw [inorder_mkLeft] at he
      simp only [Tree.inorder, List.append_nil] at he
      exact hls e he
    · intro e he
      rw [inorder_mkRight] at he
      simp only [Tree.inorder] at he
      rcases List.mem_append.mp he with h | h
      · exact lt_trans (keyCmp_lt hy) (pw_cons hs e h)
      · exact hrs e h
  | case3 x b ls rs hx y a2 hy a11 z a12 ih =>
    intro hs hls hrs
    rw [splayGo_lt_zz hx hy]
    simp only [Tree.inorder] at hs
    refine ih (pw_left (pw_left hs)) hls ?_
    intro e he
    simp only [rightFlat, Tree.inorder, List.mem_cons, List.mem_append] at he
    rcases he with rfl | (he | rfl | he) | he
    · exact keyCmp_lt hy
    · exact lt_trans (keyCmp_lt hy) (pw_cons (pw_right (pw_left hs)) e he)
    · exact keyCmp_lt hx
    · exact lt_trans (keyCmp_lt hx) (pw_cons (pw_right hs) e he)
    · exact hrs e he
  | case4 x b ls rs hx a1 y a2 hy ih =>
    intro hs hls hrs
    rw [splayGo_lt_link hx hy]
    simp only [Tree.inorder] at hs
    refine ih (pw_left hs) hls ?_
    intro e he
    simp only [rightFlat, List.mem_cons, List.mem_append] at he
    rcases he with rfl | he | he
    · exact keyCmp_lt hx
    · exact lt_trans (keyCmp_lt hx) (pw_cons (pw_right hs) e he)
    · exact hrs e he
  | case5 x a ls rs hx =>
    intro hs hls hrs
    rw [splayGo_gt_nil hx]
    refine ⟨?_, ?_⟩
    · intro e he
      rw [inorder_mkLeft] at he
      rcases List.mem_append.mp he with h | h
      · exact hls e h
      · exact lt_trans (pw_cross hs e h x (List.mem_cons_self x _)) (keyCmp_gt hx)
    · intro e he
      rw [inorder_mkRight] at he
      simp only [Tree.inorder, List.nil_append] at he
      exact hrs e he
  | case6 x a ls rs hx b1 y hy =>
    intro hs hls hrs
    rw [splayGo_gt_zz_nil hx hy]
    simp only [Tree.inorder] at hs
    refine ⟨?_, ?_⟩
    · intro e he
      rw [inorder_mkLeft] at he
      simp only [Tree.inorder, List.mem_append, List.mem_cons] at he
      rcases he with he | he | rfl | he
      · exact hls e he
      · exact lt_trans (pw_cross hs e he x (List.mem_cons_self x _)) (keyCmp_gt hx)
      · exact keyCmp_gt hx
      · exact lt_trans (pw_cross (pw_tail (pw_right hs)) e he y (by simp)) (keyCmp_gt hy)
    · intro e he
      rw [inorder_mkRight] at he
      simp only [Tree.inorder, List.nil_append] at he
      exact hrs e he
  | case7 x a ls rs hx b1 y hy b21 z b22 ih =>
    intro hs hls hrs
    rw [splayGo_gt_zz hx hy]
    simp only [Tree.inorder] at hs
    have hsb : (b1.inorder ++ y :: (b21.inorder ++ z :: b22.inorder)).Pairwise
        fun u v => key u < key v := pw_tail (pw_right hs)
    refine ih (pw_tail (pw_right hsb)) ?_ hrs
    intro e he
    simp only [leftFlat, Tree.inorder, List.mem_append, List.mem_cons,
      List.not_mem_nil, or_false] at he
    rcases he with he | (he | rfl | he) | rfl
    · exact hls e he
    · exact lt_trans (pw_cross hs e he x (List.mem_cons_self x _)) (keyCmp_gt hx)
    · exact keyCmp_gt hx
    · exact lt_trans (pw_cross hsb e he y (List.mem_cons_self y _)) (keyCmp_gt hy)
    · exact keyCmp_gt hy
  | case8 x a ls rs hx b1 y b2 hy ih =>
    intro hs hls hrs
    rw [splayGo_gt_link hx hy]
    simp only [Tree.inorder] at hs
    refine ih (pw_tail (pw_right hs)) ?_ hrs
    intro e he
    simp only [leftFlat, List.mem_append, List.mem_cons, List.not_mem_nil,
      or_false] at he
    rcases he with he | he | rfl
    · exact hls e he
    · exact lt_trans (pw_cross hs e he x (List.mem_cons_self x _)) (keyCmp_gt hx)
    · exact keyCmp_gt hx
  | case9 x a b ls rs hx =>
    intro hs hls hrs
    rw [splayGo_eq hx]
    have hq : q = key x := keyCmp_eq hx
    refine ⟨?_, ?_⟩
    · intro e he
      rw [inorder_mkLeft] at he
      rcases List.mem_append.mp he with h | h
      · exact hls e h
      · rw [hq]
        exact pw_cross hs e h x (List.mem_cons_self x _)
    · intro e he
      rw [inorder_mkRight] at he
      rcases List.mem_append.mp he with h | h
      · rw [hq]
        exact pw_cons (pw_right hs) e h
      · exact hrs e h

end Partition

/-!  Specializations to empty accumulators, and the operation-level facts. -/

theorem splayGo_nil_glue (cmp : α → Ordering) (x : α) (a b : Tree α) :
    (splayGo cmp x a b [] []).1.inorder ++ (splayGo cmp x a b [] []).2.1 ::
      (splayGo cmp x a b [] []).2.2.inorder = (Tree.node a x b).inorder := by
  have h := splayGo_inorder cmp x a b [] []
  simpa [leftFlat, rightFlat, Tree.inorder] using h

section SortedOps

variable {K : Type} [LinearOrder K] {key : α → K} {q : K}

theorem splayGo_nil_partition (key : α → K) (q : K) (x : α) (a b : Tree α)
    (hs : Sorted key (Tree.node a x b)) :
    (∀ e ∈ (splayGo (keyCmp key q) x a b [] []).1.inorder, key e < q) ∧
    (∀ e ∈ (splayGo (keyCmp key q) x a b [] []).2.2.inorder, q < key e) := by
  refine splayGo_partition key q x a b [] [] hs ?_ ?_
  · intro e he
    simp [leftFlat] at he
  · intro e he
    simp [rightFlat] at he

theorem sorted_of_inorder_eq {t t' : Tree α} (h : t'.inorder = t.inorder)
    (hs : Sorted key t) : Sorted key t' := by
  unfold Sorted at hs ⊢
  rw [h]
  exact hs

/-- The tree after `find` is the splayed tree, whatever the outcome. -/
theorem findK_snd (key : α → K) (q : K) (t : Tree α) :
    (findK key q t).2 = splay (keyCmp key q) t := by
  cases t with
  | nil => rfl
  | node a x b =>
    simp only [findK, find, splay]
    split <;> rfl

/-- A successful `find` returns an element of the tree whose key compares
`Equal` to the probe. -/
theorem findK_some_spec {t : Tree α} {e : α}
    (h : (findK key q t).1 = some e) : key e = q ∧ e ∈ t.inorder := by
  cases t with
  | nil => simp [findK, find] at h
  | node a x b =>
    rcases hsp : splayGo (keyCmp key q) x a b [] [] with ⟨l, y, r⟩
    simp only [findK, find, hsp] at h
    by_cases hc : keyCmp key q y = .eq
    · rw [if_pos hc] at h
      have he : e = y := by
        simpa using h.symm
      subst he
      refine ⟨(keyCmp_eq hc).symm, ?_⟩
      have hg := splayGo_nil_glue (keyCmp key q) x a b
      rw [hsp] at hg
      simp only at hg
      rw [← hg]
      exact List.mem_append_right _ (List.mem_cons_self _ _)
    · rw [if_neg hc] at h
      cases h

/-- On a tree with sorted walk, `find` succeeds exactly when the probe key is
among the keys of the tree. -/
theorem findK_isSome_iff {t : Tree α} (hs : Sorted key t) :
    (findK key q t).1.isSome = true ↔ q ∈ t.inorder.map key := by
  cases t with
  | nil => simp [findK, find, Tree.inorder]
  | node a x b =>
    rcases hsp : splayGo (keyCmp key q) x a b [] [] with ⟨l, y, r⟩
    have hpart := splayGo_nil_partition key q x a b hs
    have hg := splayGo_nil_glue (keyCmp key q) x a b
    rw [hsp] at hpart hg
    simp only at hpart hg
    constructor
    · intro hsome
      simp only [findK, find, hsp] at hsome
      by_cases hc : keyCmp key q y = .eq
      · have hy : q = key y := keyCmp_eq hc
        rw [← hg]
        refine List.mem_map.mpr ⟨y, ?_, hy.symm⟩
        exact List.mem_append_right _ (List.mem_cons_self _ _)
      · rw [if_neg hc] at hsome
        simp at hsome
    · intro hq
      rw [← hg] at hq
      rcases List.mem_map.mp hq with ⟨e, he, hek⟩
      simp only [findK, find, hsp]
      rcases List.mem_append.mp he with h1 | h1
      · exact absurd hek (ne_of_lt (hpart.1 e h1))
      rcases List.mem_cons.mp h1 with rfl | h1
      · rw [if_pos (keyCmp_of_eq hek.symm)]
        simp
      · exact absurd hek (ne_of_gt (hpart.2 e h1))

/-- `pop_root` returns the old root with both slots cleared. -/
theorem popRoot_fst (l : Tree α) (y : α) (r : Tree α) :
    (popRoot (.node l y r)).1 = some ⟨y, .nil, .nil⟩ := by
  cases l <;> rfl

/-- The walk of the tree `pop_root` leaves behind: the old root's two
subtrees, concatenated. -/
theorem popRoot_snd_inorder (l : Tree α) (y : α) (r : Tree α) :
    (popRoot (.node l y r)).2.inorder = l.inorder ++ r.inorder := by
  cases l with
  | nil => simp [popRoot, Tree.inorder]
  | node a1 z a2 =>
    rcases hsp : splayGo (maxCmp : α → Ordering) z a1 a2 [] [] with ⟨l1, m, r1⟩
    have hmax := splayGo_maxCmp_snd z a1 a2 ([] : List (α × Tree α)) ([] : List (α × Tree α))
    have hg := splayGo_nil_glue (maxCmp : α → Ordering) z a1 a2
    rw [hsp] at hmax hg
    simp only at hmax hg
    simp only [popRoot, hsp, Tree.inorder]
    subst hmax
    simp only [mkRight, List.foldl_nil, Tree.inorder, List.append_nil] at hg
    rw [← hg]
    simp [Tree.inorder]

end SortedOps

section InsertOps

variable {K : Type} [LinearOrder K] {key : α → K}

theorem pairwise_insert_mid {R : α → α → Prop} {l1 l2 : List α} {e : α}
    (h : (l1 ++ l2).Pairwise R)
    (h1 : ∀ u ∈ l1, R u e) (h2 : ∀ v ∈ l2, R e v) :
    (l1 ++ e :: l2).Pairwise R := by
  rw [List.pairwise_append] at h ⊢
  refine ⟨h.1, ?_, ?_⟩
  · rw [List.pairwise_cons]
    exact ⟨h2, h.2.1⟩
  · intro u hu v hv
    rcases List.mem_cons.mp hv with rfl | hv
    · exact h1 u hu
    · exact h.2.2 u hu v hv

/-- Inserting an element whose key is not yet present: the insert happens, the
walk gains exactly `e` at its sorted position, and the walk stays sorted. -/
theorem insertK_not_mem {e : α} {t : Tree α} (hs : Sorted key t)
    (hnew : key e ∉ t.inorder.map key) :
    (insertK key e t).inserted = true ∧
    Sorted key (insertK key e t).tree ∧
    ∃ l1 l2 : List α, t.inorder = l1 ++ l2 ∧
      (insertK key e t).tree.inorder = l1 ++ e :: l2 ∧
      (∀ u ∈ l1, key u < key e) ∧ (∀ v ∈ l2, key e < key v) := by
  cases t with
  | nil =>
    refine ⟨rfl, ?_, [], [], by simp [Tree.inorder], by simp [insertK, insert, Tree.inorder], ?_, ?_⟩ <;>
      simp [Sorted, insertK, insert, Tree.inorder]
  | node a x b =>
    rcases hsp : splayGo (keyCmp key (key e)) x a b [] [] with ⟨l, y, r⟩
    have hpart := splayGo_nil_partition key (key e) x a b hs
    have hg := splayGo_nil_glue (keyCmp key (key e)) x a b
    rw [hsp] at hpart hg
    simp only at hpart hg
    have hsl : ((l.inorder ++ y :: r.inorder).Pairwise fun u v => key u < key v) := by
      unfold Sorted at hs
      rw [hg]
      exact hs
    rcases hc : keyCmp key (key e) y with _ | _ | _
    · -- Less branch of insert
      refine ⟨by simp [insertK, insert, hsp, hc], ?_, l.inorder, y :: r.inorder, hg.symm, ?_, ?_, ?_⟩
      · unfold Sorted
        simp only [insertK, insert, hsp, hc, Tree.inorder, List.nil_append]
        refine pairwise_insert_mid ?_ hpart.1 ?_
        · exact hsl
        · intro v hv
          rcases List.mem_cons.mp hv with rfl | hv
          · exact keyCmp_lt hc
          · exact hpart.2 v hv
      · simp [insertK, insert, hsp, hc, Tree.inorder]
      · exact hpart.1
      · intro v hv
        rcases List.mem_cons.mp hv with rfl | hv
        · exact keyCmp_lt hc
        · exact hpart.2 v hv
    · -- Equal branch impossible: the key would already be present
      exfalso
      refine hnew (List.mem_map.mpr ⟨y, ?_, (keyCmp_eq hc).symm⟩)
      rw [← hg]
      exact List.mem_append_right _ (List.mem_cons_self _ _)
    · -- Greater branch of insert
      have hly : ∀ u ∈ l.inorder ++ [y], key u < key e := by
        intro u hu
        rcases List.mem_append.mp hu with hu | hu
        · exact hpart.1 u hu
        · rcases List.mem_singleton.mp hu with rfl
          exact keyCmp_gt hc
      refine ⟨by simp [insertK, insert, hsp, hc], ?_, l.inorder ++ [y], r.inorder, ?_, ?_, hly, hpart.2⟩
      · unfold Sorted
        simp only [insertK, insert, hsp, hc, Tree.inorder, List.append_nil]
        have : (l.inorder ++ [y]) ++ e :: r.inorder
            = l.inorder ++ [y] ++ e :: r.inorder := by simp
        refine pairwise_insert_mid ?_ hly hpart.2
        rw [List.append_assoc]
        simpa using hsl
      · rw [← hg]
        simp
      · simp [insertK, insert, hsp, hc, Tree.inorder]

/-- Inserting an element whose key is already present: refused, walk
unchanged, the rejected node stays unlinked (slots empty). -/
theorem insertK_dup {e : α} {t : Tree α} (hs : Sorted key t)
    (hdup : key e ∈ t.inorder.map key) :
    (insertK key e t).inserted = false ∧
    (insertK key e t).tree.inorder = t.inorder ∧
    (insertK key e t).nodeLeft = .nil ∧ (insertK key e t).nodeRight = .nil := by
  cases t with
  | nil => simp [Tree.inorder] at hdup
  | node a x b =>
    rcases hsp : splayGo (keyCmp key (key e)) x a b [] [] with ⟨l, y, r⟩
    have hpart := splayGo_nil_partition key (key e) x a b hs
    have hg := splayGo_nil_glue (keyCmp key (key e)) x a b
    rw [hsp] at hpart hg
    simp only at hpart hg
    have hc : keyCmp key (key e) y = .eq := by
      rcases List.mem_map.mp hdup with ⟨u, hu, hku⟩
      rw [← hg] at hu
      rcases List.mem_append.mp hu with h1 | h1
      · exact absurd hku (ne_of_lt (hpart.1 u h1))
      rcases List.mem_cons.mp h1 with rfl | h1
      · exact keyCmp_of_eq hku.symm
      · exact absurd hku (ne_of_gt (hpart.2 u h1))
    refine ⟨by simp [insertK, insert, hsp, hc], ?_,
      by simp [insertK, insert, hsp, hc], by simp [insertK, insert, hsp, hc]⟩
    simp only [insertK, insert, hsp, hc, Tree.inorder]
    simpa [Tree.inorder] using hg

theorem insertK_sorted (e : α) {t : Tree α} (hs : Sorted key t) :
    Sorted key (insertK key e t).tree := by
  by_cases h : key e ∈ t.inorder.map key
  · exact sorted_of_inorder_eq (insertK_dup hs h).2.1 hs
  · exact (insertK_not_mem hs h).2.1

/-- Keys present after an insert: the inserted key, plus the old ones. -/
theorem insertK_keys (e : α) {t : Tree α} (hs : Sorted key t) (q' : K) :
    q' ∈ (insertK key e t).tree.inorder.map key
      ↔ q' = key e ∨ q' ∈ t.inorder.map key := by
  by_cases h : key e ∈ t.inorder.map key
  · rw [(insertK_dup hs h).2.1]
    constructor
    · exact Or.inr
    · rintro (rfl | hq)
      · exact h
      · exact hq
  · obtain ⟨-, -, l1, l2, ht, ht', -, -⟩ := insertK_not_mem hs h
    rw [ht, ht']
    simp only [List.map_append, List.map_cons, List.mem_append, List.mem_cons]
    constructor
    · rintro (h1 | rfl | h1)
      · exact Or.inr (Or.inl h1)
      · exact Or.inl rfl
      · exact Or.inr (Or.inr h1)
    · rintro (rfl | h1 | h1)
      · exact Or.inr (Or.inl rfl)
      · exact Or.inl h1
      · exact Or.inr (Or.inr h1)

/-- Elements present after an insert come from the insert or the old tree. -/
theorem insertK_elems {e : α} {t : Tree α} (hs : Sorted key t) (u : α)
    (hu : u ∈ (insertK key e t).tree.inorder) : u = e ∨ u ∈ t.inorder := by
  by_cases h : key e ∈ t.inorder.map key
  · rw [(insertK_dup hs h).2.1] at hu
    exact Or.inr hu
  · obtain ⟨-, -, l1, l2, ht, ht', -, -⟩ := insertK_not_mem hs h
    rw [ht'] at hu
    rw [ht]
    rcases List.mem_append.mp hu with h1 | h1
    · exact Or.inr (List.mem_append_left _ h1)
    rcases List.mem_cons.mp h1 with rfl | h1
    · exact Or.inl rfl
    · exact Or.inr (List.mem_append_right _ h1)

end InsertOps

section RemoveOps

variable {K : Type} [LinearOrder K] {key : α → K} {q : K}

/-- Removing an absent key: `None`, and the walk is unchanged (the splay only
restructures). -/
theorem removeK_not_mem {t : Tree α} (hs : Sorted key t)
    (h : q ∉ t.inorder.map key) :
    (removeK key q t).1 = none ∧ (removeK key q t).2.inorder = t.inorder := by
  cases t with
  | nil => exact ⟨rfl, rfl⟩
  | node a x b =>
    rcases hsp : splayGo (keyCmp key q) x a b [] [] with ⟨l, y, r⟩
    have hg := splayGo_nil_glue (keyCmp key q) x a b
    rw [hsp] at hg
    simp only at hg
    have hc : keyCmp key q y ≠ .eq := by
      intro hc
      refine h (List.mem_map.mpr ⟨y, ?_, (keyCmp_eq hc).symm⟩)
      rw [← hg]
      exact List.mem_append_right _ (List.mem_cons_self _ _)
    refine ⟨by simp [removeK, remove, hsp, hc], ?_⟩
    simp only [removeK, remove, hsp, if_neg hc, Tree.inorder]
    simpa [Tree.inorder] using hg

/-- Removing a present key: returns the (cleared) node holding that key; the
remaining walk is the old one minus that node, still sorted, and no longer
contains the key. -/
theorem removeK_mem {t : Tree α} (hs : Sorted key t)
    (h : q ∈ t.inorder.map key) :
    ∃ rem, (removeK key q t).1 = some rem ∧ rem.left = .nil ∧ rem.right = .nil ∧
      key rem.elem = q ∧
      Sorted key (removeK key q t).2 ∧
      q ∉ (removeK key q t).2.inorder.map key ∧
      (rem.elem :: (removeK key q t).2.inorder).Perm t.inorder := by
  cases t with
  | nil => simp [Tree.inorder] at h
  | node a x b =>
    rcases hsp : splayGo (keyCmp key q) x a b [] [] with ⟨l, y, r⟩
    have hpart := splayGo_nil_partition key q x a b hs
    have hg := splayGo_nil_glue (keyCmp key q) x a b
    rw [hsp] at hpart hg
    simp only at hpart hg
    have hsl : ((l.inorder ++ y :: r.inorder).Pairwise fun u v => key u < key v) := by
      unfold Sorted at hs
      rw [hg]
      exact hs
    have hc : keyCmp key q y = .eq := by
      rcases List.mem_map.mp h with ⟨u, hu, hku⟩
      rw [← hg] at hu
      rcases List.mem_append.mp hu with h1 | h1
      · exact absurd hku (ne_of_lt (hpart.1 u h1))
      rcases List.mem_cons.mp h1 with rfl | h1
      · exact keyCmp_of_eq hku.symm
      · exact absurd hku (ne_of_gt (hpart.2 u h1))
    have hrem : (removeK key q (.node a x b)).1 = some ⟨y, .nil, .nil⟩ := by
      simp only [removeK, remove, hsp, if_pos hc]
      exact popRoot_fst l y r
    have hsnd : (removeK key q (.node a x b)).2.inorder = l.inorder ++ r.inorder := by
      simp only [removeK, remove, hsp, if_pos hc]
      exact popRoot_snd_inorder l y r
    refine ⟨⟨y, .nil, .nil⟩, hrem, rfl, rfl, (keyCmp_eq hc).symm, ?_, ?_, ?_⟩
    · unfold Sorted
      rw [hsnd]
      rw [List.pairwise_append]
      exact ⟨pw_left hsl, pw_tail (pw_right hsl),
        fun u hu v hv => pw_cross hsl u hu v (List.mem_cons_of_mem _ hv)⟩
    · rw [hsnd]
      intro hq
      rcases List.mem_map.mp hq with ⟨u, hu, hku⟩
      rcases List.mem_append.mp hu with h1 | h1
      · exact absurd hku (ne_of_lt (hpart.1 u h1))
      · exact absurd hku (ne_of_gt (hpart.2 u h1))
    · rw [hsnd]
      have hp : (y :: (l.inorder ++ r.inorder)).Perm (l.inorder ++ y :: r.inorder) :=
        List.perm_middle.symm
      rw [hg] at hp
      exact hp

theorem removeK_sorted {t : Tree α} (hs : Sorted key t) :
    Sorted key (removeK key q t).2 := by
  by_cases h : q ∈ t.inorder.map key
  · obtain ⟨rem, -, -, -, -, hsrt, -, -⟩ := removeK_mem hs h
    exact hsrt
  · exact sorted_of_inorder_eq (removeK_not_mem hs h).2 hs

end RemoveOps

section OpsSeq

variable {K : Type} [LinearOrder K] {key : α → K}

theorem applyOp_sorted {t : Tree α} (op : Op α K) (hs : Sorted key t) :
    Sorted key (applyOp key op t) := by
  cases op with
  | ins e => exact insertK_sorted e hs
  | del q => exact removeK_sorted hs

theorem applyOps_sorted (key : α → K) (ops : List (Op α K)) {t : Tree α}
    (hs : Sorted key t) : Sorted key (applyOps key ops t) := by
  induction ops generalizing t with
  | nil => exact hs
  | cons op ops ih => exact ih (applyOp_sorted op hs)

theorem sorted_nil : Sorted key (Tree.nil : Tree α) := by
  simp [Sorted, Tree.inorder]

end OpsSeq

/-!  The min/max and pop operations. -/

section MinMax

theorem minT_node (a : Tree α) (x : α) (b : Tree α) :
    ∃ y r, minT (.node a x b) = (some y, .node .nil y r) ∧
      y :: r.inorder = (Tree.node a x b).inorder := by
  rcases hsp : splayGo (minCmp : α → Ordering) x a b [] [] with ⟨l, y, r⟩
  have hmin := splayGo_minCmp_fst x a b ([] : List (α × Tree α)) ([] : List (α × Tree α))
  have hg := splayGo_nil_glue (minCmp : α → Ordering) x a b
  rw [hsp] at hmin hg
  simp only [mkLeft, List.foldl_nil] at hmin
  simp only at hg
  subst hmin
  refine ⟨y, r, by simp [minT, hsp], ?_⟩
  simpa [Tree.inorder] using hg

theorem maxT_node (a : Tree α) (x : α) (b : Tree α) :
    ∃ y l, maxT (.node a x b) = (some y, .node l y .nil) ∧
      l.inorder ++ [y] = (Tree.node a x b).inorder := by
  rcases hsp : splayGo (maxCmp : α → Ordering) x a b [] [] with ⟨l, y, r⟩
  have hmax := splayGo_maxCmp_snd x a b ([] : List (α × Tree α)) ([] : List (α × Tree α))
  have hg := splayGo_nil_glue (maxCmp : α → Ordering) x a b
  rw [hsp] at hmax hg
  simp only [mkRight, List.foldl_nil] at hmax
  simp only at hg
  subst hmax
  refine ⟨y, l, by simp [maxT, hsp], ?_⟩
  simpa [Tree.inorder] using hg

theorem popMin_node (a : Tree α) (x : α) (b : Tree α) :
    ∃ y r, popMin (.node a x b) = (some ⟨y, .nil, .nil⟩, r) ∧
      y :: r.inorder = (Tree.node a x b).inorder := by
  obtain ⟨y, r, hmt, hio⟩ := minT_node a x b
  exact ⟨y, r, by simp [popMin, hmt, popRoot], hio⟩

theorem popMax_node (a : Tree α) (x : α) (b : Tree α) :
    ∃ y t2, popMax (.node a x b) = (some ⟨y, .nil, .nil⟩, t2) ∧
      t2.inorder ++ [y] = (Tree.node a x b).inorder := by
  obtain ⟨y, l, hmt, hio⟩ := maxT_node a x b
  have h2 : popMax (.node a x b) = popRoot (.node l y .nil) := by
    simp [popMax, hmt]
  refine ⟨y, (popRoot (.node l y .nil)).2, ?_, ?_⟩
  · rw [h2]
    exact Prod.ext (popRoot_fst l y .nil) rfl
  · rw [popRoot_snd_inorder]
    simpa [Tree.inorder] using hio

theorem popMinSeq_eq (n : Nat) (t : Tree α) (h : t.inorder.length ≤ n) :
    popMinSeq n t = t.inorder := by
  induction n generalizing t with
  | zero =>
    cases t with
    | nil => rfl
    | node a x b => simp [Tree.inorder] at h
  | succ n ih =>
    cases t with
    | nil => rfl
    | node a x b =>
      obtain ⟨y, r, hpm, hio⟩ := popMin_node a x b
      rw [← hio]
      simp only [popMinSeq, hpm]
      rw [ih r ?_]
      have hlen := congrArg List.length hio
      simp only [List.length_cons] at hlen
      omega

theorem popMaxSeq_eq (n : Nat) (t : Tree α) (h : t.inorder.length ≤ n) :
    popMaxSeq n t = t.inorder.reverse := by
  induction n generalizing t with
  | zero =>
    cases t with
    | nil => rfl
    | node a x b => simp [Tree.inorder] at h
  | succ n ih =>
    cases t with
    | nil => rfl
    | node a x b =>
      obtain ⟨y, t2, hpm, hio⟩ := popMax_node a x b
      rw [← hio]
      simp only [popMaxSeq, hpm]
      rw [ih t2 ?_]
      · simp
      have hlen := congrArg List.length hio
      simp only [List.length_append, List.length_singleton] at hlen
      omega

end MinMax

section InsertList

variable {K : Type} [LinearOrder K] {key : α → K}

theorem insertList_sorted (key : α → K) (S : List α) {t : Tree α}
    (hs : Sorted key t) : Sorted key (insertList key S t) := by
  induction S generalizing t with
  | nil => exact hs
  | cons e S ih => exact ih (insertK_sorted e hs)

theorem insertList_keys (S : List α) {t : Tree α} (hs : Sorted key t) (q' : K) :
    q' ∈ (insertList key S t).inorder.map key
      ↔ q' ∈ S.map key ∨ q' ∈ t.inorder.map key := by
  induction S generalizing t with
  | nil => simp [insertList]
  | cons e S ih =>
    have h1 := ih (insertK_sorted e hs)
    have h2 := insertK_keys e hs q'
    show q' ∈ (insertList key S (insertK key e t).tree).inorder.map key ↔ _
    rw [h1, h2]
    simp only [List.map_cons, List.mem_cons]
    tauto

theorem insertList_elems (S : List α) {t : Tree α} (hs : Sorted key t) (u : α)
    (hu : u ∈ (insertList key S t).inorder) : u ∈ S ∨ u ∈ t.inorder := by
  induction S generalizing t with
  | nil => exact Or.inr hu
  | cons e S ih =>
    rcases ih (insertK_sorted e hs) hu with h1 | h1
    · exact Or.inl (List.mem_cons_of_mem _ h1)
    · rcases insertK_elems hs u h1 with rfl | h2
      · exact Or.inl (List.mem_cons_self _ _)
      · exact Or.inr h2

/-- With pairwise-distinct keys (and keys fresh for `t`), inserting a list
adds exactly its elements to the walk. -/
theorem insertList_perm (S : List α) {t : Tree α} (hs : Sorted key t)
    (hnodup : (S.map key).Nodup)
    (hdisj : ∀ e ∈ S, key e ∉ t.inorder.map key) :
    (insertList key S t).inorder.Perm (S ++ t.inorder) := by
  induction S generalizing t with
  | nil => simp [insertList]
  | cons e S ih =>
    have hnew : key e ∉ t.inorder.map key := hdisj e (List.mem_cons_self _ _)
    obtain ⟨-, -, l1, l2, ht, ht', -, -⟩ := insertK_not_mem hs hnew
    have hperm1 : (insertK key e t).tree.inorder.Perm (e :: t.inorder) := by
      rw [ht, ht']
      exact List.perm_middle
    have hnodup' : (S.map key).Nodup := (List.nodup_cons.mp (by simpa using hnodup)).2
    have hdisj' : ∀ u ∈ S, key u ∉ (insertK key e t).tree.inorder.map key := by
      intro u hu hk
      rcases (insertK_keys e hs (key u)).mp hk with h1 | h1
      · have : key e ∉ S.map key := (List.nodup_cons.mp (by simpa using hnodup)).1
        exact this (h1 ▸ List.mem_map_of_mem key hu)
      · exact hdisj u (List.mem_cons_of_mem _ hu) h1
    have hmain := ih (insertK_sorted e hs) hnodup' hdisj'
    show (insertList key S (insertK key e t).tree).inorder.Perm _
    refine hmain.trans ?_
    refine ((hperm1.append_left S).trans ?_)
    exact List.perm_middle

end InsertList

/-!  The claim theorems. -/

/-- C1: for every tree built from the empty tree by any sequence of insert
and remove operations (ordering fixed by a key projection into a linear
order), the in-order walk is non-decreasing in key. -/
theorem order_invariant_C1 {K : Type} [LinearOrder K] (key : α → K)
    (ops : List (Op α K)) :
    ((applyOps key ops Tree.nil).inorder).Chain' fun u v => key u ≤ key v := by
  have hs := applyOps_sorted key ops sorted_nil
  exact List.Pairwise.chain' (List.Pairwise.imp (fun h => le_of_lt h) hs)

/-- C2: for a tree built by inserting the elements of `S`, `find q` succeeds
iff some element of `S` has key `q`, and a returned element has key `q` (and
comes from `S`). -/
theorem find_correct_C2 {K : Type} [LinearOrder K] (key : α → K)
    (S : List α) (q : K) :
    ((findK key q (insertList key S Tree.nil)).1.isSome = true
        ↔ ∃ e ∈ S, key e = q) ∧
    ∀ e, (findK key q (insertList key S Tree.nil)).1 = some e →
      key e = q ∧ e ∈ S := by
  have hs : Sorted key (insertList key S Tree.nil) := insertList_sorted key S sorted_nil
  constructor
  · rw [findK_isSome_iff hs, insertList_keys S sorted_nil q]
    simp [Tree.inorder, List.mem_map]
  · intro e he
    obtain ⟨hk, hmem⟩ := findK_some_spec he
    refine ⟨hk, ?_⟩
    rcases insertList_elems S sorted_nil e hmem with h | h
    · exact h
    · simp [Tree.inorder] at h

/-- C3: on a tree with the BST invariant, removing a present key returns the
node and makes a subsequent `find` of that key empty; removing an absent key
returns `None` and leaves the walk-observable multiset unchanged. -/
theorem remove_find_C3 {K : Type} [LinearOrder K] (key : α → K) (q : K)
    (t : Tree α) (hs : Sorted key t) :
    ((∃ e ∈ t.inorder, key e = q) →
        (removeK key q t).1.isSome = true ∧
        (findK key q (removeK key q t).2).1 = none) ∧
    ((¬ ∃ e ∈ t.inorder, key e = q) →
        (removeK key q t).1 = none ∧
        ((removeK key q t).2.inorder : Multiset α) = (t.inorder : Multiset α)) := by
  constructor
  · intro hex
    have hq : q ∈ t.inorder.map key := by
      rcases hex with ⟨e, he, hk⟩
      exact List.mem_map.mpr ⟨e, he, hk⟩
    obtain ⟨rem, hrem, -, -, -, hsorted2, hnot, -⟩ := removeK_mem hs hq
    refine ⟨by simp [hrem], ?_⟩
    rcases hfind : (findK key q (removeK key q t).2).1 with _ | e
    · rfl
    · exact absurd ((findK_isSome_iff hsorted2).mp (by simp [hfind])) hnot
  · intro hnex
    have hq : q ∉ t.inorder.map key := by
      intro hq
      rcases List.mem_map.mp hq with ⟨e, he, hk⟩
      exact hnex ⟨e, he, hk⟩
    obtain ⟨h1, h2⟩ := removeK_not_mem hs hq
    exact ⟨h1, by rw [h2]⟩

/-- C3 witness. -/
theorem remove_find_C3_witness :
    ((∃ e ∈ (Tree.node .nil 1 .nil : Tree Nat).inorder, (fun n : Nat => n) e = 1) →
        (removeK (fun n : Nat => n) 1 (.node .nil 1 .nil)).1.isSome = true ∧
        (findK (fun n : Nat => n) 1
          (removeK (fun n : Nat => n) 1 (.node .nil 1 .nil)).2).1 = none) ∧
    ((¬ ∃ e ∈ (Tree.node .nil 1 .nil : Tree Nat).inorder, (fun n : Nat => n) e = 1) →
        (removeK (fun n : Nat => n) 1 (.node .nil 1 .nil)).1 = none ∧
        (((removeK (fun n : Nat => n) 1 (.node .nil 1 .nil)).2.inorder : Multiset Nat)
          = ((Tree.node .nil 1 .nil : Tree Nat).inorder : Multiset Nat))) :=
  remove_find_C3 (fun n => n) 1 (.node .nil 1 .nil) (by simp [Sorted, Tree.inorder])

/-- C4: inserting an element whose key is already present is refused: `false`
is returned, the new node's slots stay empty (it remains unlinked — in
particular it is not reachable in the walk), and the walk is unchanged. -/
theorem insert_duplicate_C4 {K : Type} [LinearOrder K] (key : α → K) (e : α)
    (t : Tree α) (hs : Sorted key t)
    (hdup : ∃ e2 ∈ t.inorder, key e2 = key e) (hnotin : e ∉ t.inorder) :
    (insertK key e t).inserted = false ∧
    (insertK key e t).nodeLeft = .nil ∧
    (insertK key e t).nodeRight = .nil ∧
    (insertK key e t).tree.inorder = t.inorder ∧
    e ∉ (insertK key e t).tree.inorder := by
  have hq : key e ∈ t.inorder.map key := by
    rcases hdup with ⟨u, hu, hk⟩
    exact List.mem_map.mpr ⟨u, hu, hk⟩
  obtain ⟨h1, h2, h3, h4⟩ := insertK_dup hs hq
  refine ⟨h1, h3, h4, h2, ?_⟩
  rw [h2]
  exact hnotin

/-- C4 witness: a record with key 1 is present; inserting a distinct record
with the same key is refused. -/
theorem insert_duplicate_C4_witness :
    (insertK (fun p : Nat × Nat => p.1) (1, 1)
        (.node .nil (1, 0) .nil)).inserted = false ∧
    (insertK (fun p : Nat × Nat => p.1) (1, 1)
        (.node .nil (1, 0) .nil)).nodeLeft = .nil ∧
    (insertK (fun p : Nat × Nat => p.1) (1, 1)
        (.node .nil (1, 0) .nil)).nodeRight = .nil ∧
    (insertK (fun p : Nat × Nat => p.1) (1, 1)
        (.node .nil (1, 0) .nil)).tree.inorder
      = (Tree.node .nil ((1 : Nat), (0 : Nat)) .nil).inorder ∧
    ((1 : Nat), (1 : Nat)) ∉ (insertK (fun p : Nat × Nat => p.1) (1, 1)
        (.node .nil (1, 0) .nil)).tree.inorder :=
  insert_duplicate_C4 (fun p => p.1) (1, 1) (.node .nil (1, 0) .nil)
    (by simp [Sorted, Tree.inorder])
    ⟨(1, 0), by decide, rfl⟩
    (by decide)

/-- C5: building a tree by inserting elements with pairwise-distinct keys,
repeatedly popping the minimum yields a non-decreasing sequence exhausting
exactly the inserted multiset; popping the maximum yields a non-increasing
sequence of the same multiset; and `pop_min`/`pop_max` are exactly
`min`/`max` composed with `pop_root`. -/
theorem pop_min_max_C5 {K : Type} [LinearOrder K] (key : α → K) (S : List α)
    (hnodup : (S.map key).Nodup) :
    (popMinSeq (insertList key S Tree.nil).inorder.length
        (insertList key S Tree.nil)).Chain' (fun u v => key u ≤ key v) ∧
    ((popMinSeq (insertList key S Tree.nil).inorder.length
        (insertList key S Tree.nil) : Multiset α) = (S : Multiset α)) ∧
    (popMaxSeq (insertList key S Tree.nil).inorder.length
        (insertList key S Tree.nil)).Chain' (fun u v => key v ≤ key u) ∧
    ((popMaxSeq (insertList key S Tree.nil).inorder.length
        (insertList key S Tree.nil) : Multiset α) = (S : Multiset α)) ∧
    (∀ u : Tree α, popMin u =
      if (minT u).1.isSome then popRoot (minT u).2 else (none, (minT u).2)) ∧
    (∀ u : Tree α, popMax u =
      if (maxT u).1.isSome then popRoot (maxT u).2 else (none, (maxT u).2)) := by
  have hs := insertList_sorted key S sorted_nil
  have hperm := insertList_perm S sorted_nil hnodup (by simp [Tree.inorder])
  simp only [List.append_nil, Tree.inorder] at hperm
  have hmin := popMinSeq_eq (insertList key S Tree.nil).inorder.length _ le_rfl
  have hmax := popMaxSeq_eq (insertList key S Tree.nil).inorder.length _ le_rfl
  refine ⟨?_, ?_, ?_, ?_, ?_, ?_⟩
  · rw [hmin]
    exact List.Pairwise.chain' (List.Pairwise.imp (fun h => le_of_lt h) hs)
  · rw [hmin]
    exact Multiset.coe_eq_coe.mpr hperm
  · rw [hmax, List.chain'_reverse]
    exact List.Pairwise.chain' (List.Pairwise.imp (fun h => le_of_lt h) hs)
  · rw [hmax]
    exact Multiset.coe_eq_coe.mpr ((List.reverse_perm _).trans hperm)
  · intro u
    rcases h : minT u with ⟨m, t2⟩
    cases m <;> simp [popMin, h]
  · intro u
    rcases h : maxT u with ⟨m, t2⟩
    cases m <;> simp [popMax, h]

/-- C5 witness. -/
theorem pop_min_max_C5_witness :
    (popMinSeq (insertList (fun n : Nat => n) [2, 1] Tree.nil).inorder.length
        (insertList (fun n : Nat => n) [2, 1] Tree.nil)).Chain'
        (fun u v => u ≤ v) ∧
    ((popMinSeq (insertList (fun n : Nat => n) [2, 1] Tree.nil).inorder.length
        (insertList (fun n : Nat => n) [2, 1] Tree.nil) : Multiset Nat)
      = (([2, 1] : List Nat) : Multiset Nat)) ∧
    (popMaxSeq (insertList (fun n : Nat => n) [2, 1] Tree.nil).inorder.length
        (insertList (fun n : Nat => n) [2, 1] Tree.nil)).Chain'
        (fun u v => v ≤ u) ∧
    ((popMaxSeq (insertList (fun n : Nat => n) [2, 1] Tree.nil).inorder.length
        (insertList (fun n : Nat => n) [2, 1] Tree.nil) : Multiset Nat)
      = (([2, 1] : List Nat) : Multiset Nat)) ∧
    (∀ u : Tree Nat, popMin u =
      if (minT u).1.isSome then popRoot (minT u).2 else (none, (minT u).2)) ∧
    (∀ u : Tree Nat, popMax u =
      if (maxT u).1.isSome then popRoot (maxT u).2 else (none, (maxT u).2)) :=
  pop_min_max_C5 (fun n => n) [2, 1] (by decide)

/-- The node handed back by `pop_root` always has both slots cleared. -/
theorem popRoot_cleared (t : Tree α) :
    ∀ rem, (popRoot t).1 = some rem → rem.left = .nil ∧ rem.right = .nil := by
  cases t with
  | nil =>
    intro rem h
    simp [popRoot] at h
  | node a x b =>
    intro rem h
    rw [popRoot_fst] at h
    cases h
    exact ⟨rfl, rfl⟩

/-- C6: whenever `remove`, `pop_root`, `pop_min` or `pop_max` hands a node
back, its two slots are empty at the moment the call returns. -/
theorem removed_cleared_C6 {K : Type} [LinearOrder K] (key : α → K) (q : K)
    (t : Tree α) :
    (∀ rem, (removeK key q t).1 = some rem →
      rem.left = .nil ∧ rem.right = .nil) ∧
    (∀ rem, (popRoot t).1 = some rem → rem.left = .nil ∧ rem.right = .nil) ∧
    (∀ rem, (popMin t).1 = some rem → rem.left = .nil ∧ rem.right = .nil) ∧
    (∀ rem, (popMax t).1 = some rem → rem.left = .nil ∧ rem.right = .nil) := by
  refine ⟨?_, popRoot_cleared t, ?_, ?_⟩
  · cases t with
    | nil =>
      intro rem h
      simp [removeK, remove] at h
    | node a x b =>
      intro rem h
      rcases hsp : splayGo (keyCmp key q) x a b [] [] with ⟨l, y, r⟩
      simp only [removeK, remove, hsp] at h
      by_cases hc : keyCmp key q y = .eq
      · rw [if_pos hc] at h
        exact popRoot_cleared _ rem h
      · rw [if_neg hc] at h
        simp at h
  · cases t with
    | nil =>
      intro rem h
      simp [popMin, minT] at h
    | node a x b =>
      intro rem h
      obtain ⟨y, r, hpm, -⟩ := popMin_node a x b
      rw [hpm] at h
      cases h
      exact ⟨rfl, rfl⟩
  · cases t with
    | nil =>
      intro rem h
      simp [popMax, maxT] at h
    | node a x b =>
      intro rem h
      obtain ⟨y, t2, hpm, -⟩ := popMax_node a x b
      rw [hpm] at h
      cases h
      exact ⟨rfl, rfl⟩

/-- C6 witness. -/
theorem removed_cleared_C6_witness :
    (⟨1, Tree.nil, Tree.nil⟩ : Removed Nat).left = Tree.nil ∧
    (⟨1, Tree.nil, Tree.nil⟩ : Removed Nat).right = Tree.nil :=
  (removed_cleared_C6 (fun n : Nat => n) 1 (.node .nil 1 .nil)).2.1
    ⟨1, Tree.nil, Tree.nil⟩ rfl

/-- C7: when `find` succeeds, the returned element sits at the root of the
restructured tree. -/
theorem find_splays_root_C7 {K : Type} [LinearOrder K] (key : α → K) (q : K)
    (t : Tree α) (e : α) (h : (findK key q t).1 = some e) :
    (findK key q t).2.root? = some e := by
  cases t with
  | nil => simp [findK, find] at h
  | node a x b =>
    rcases hsp : splayGo (keyCmp key q) x a b [] [] with ⟨l, y, r⟩
    simp only [findK, find, hsp] at h ⊢
    by_cases hc : keyCmp key q y = .eq
    · rw [if_pos hc] at h ⊢
      injection h with h2
      rw [← h2]
      rfl
    · rw [if_neg hc] at h
      simp at h

/-- C7 witness. -/
theorem find_splays_root_C7_witness :
    (findK (fun n : Nat => n) 1
      (Tree.node (.node .nil 1 .nil) 2 (.node .nil 3 .nil))).2.root? = some 1 :=
  find_splays_root_C7 (fun n => n) 1
    (.node (.node .nil 1 .nil) 2 (.node .nil 3 .nil)) 1
    (by simp [findK, find, splayGo, keyCmp, cmp3, mkLeft, mkRight])

/-- C8: `pop_root` returns exactly the element `root` reported just before
the call; on the empty tree both are `None`. -/
theorem pop_root_agrees_C8 (t : Tree α) :
    ((popRoot t).1.map Removed.elem = t.root?) ∧
    (t = .nil → popRoot t = (none, .nil) ∧ t.root? = none) := by
  constructor
  · cases t with
    | nil => rfl
    | node a x b =>
      rw [popRoot_fst]
      rfl
  · rintro rfl
    exact ⟨rfl, rfl⟩

/-- C8 witness. -/
theorem pop_root_agrees_C8_witness :
    ((popRoot (Tree.nil : Tree Nat)).1.map Removed.elem
        = (Tree.nil : Tree Nat).root?) ∧
    (popRoot (Tree.nil : Tree Nat) = (none, .nil) ∧
      (Tree.nil : Tree Nat).root? = none) :=
  ⟨(pop_root_agrees_C8 .nil).1, (pop_root_agrees_C8 .nil).2 rfl⟩

/-- C10: on the empty tree, every query and removal operation returns `None`
and leaves the tree empty. -/
theorem empty_tree_C10 {K : Type} [LinearOrder K] (key : α → K) (q : K) :
    findK key q (Tree.nil : Tree α) = (none, .nil) ∧
    removeK key q (Tree.nil : Tree α) = (none, .nil) ∧
    minT (Tree.nil : Tree α) = (none, .nil) ∧
    maxT (Tree.nil : Tree α) = (none, .nil) ∧
    popRoot (Tree.nil : Tree α) = (none, .nil) ∧
    popMin (Tree.nil : Tree α) = (none, .nil) ∧
    popMax (Tree.nil : Tree α) = (none, .nil) :=
  ⟨rfl, rfl, rfl, rfl, rfl, rfl, rfl⟩

/-!  C9: independence of co-located indices.  Frame half: every store write
the engine performs through `lensX` leaves every record's `sy` component
untouched. -/

section FrameX

theorem sy_wrL_X (σ : Store) (i : Nat) (v : Option Nat) (j : Nat) :
    ((wrL lensX σ i v) j).sy = (σ j).sy := by
  by_cases hji : j = i
  · subst hji
    simp [wrL, lensX]
  · simp [wrL, lensX, hji]

theorem sy_wrR_X (σ : Store) (i : Nat) (v : Option Nat) (j : Nat) :
    ((wrR lensX σ i v) j).sy = (σ j).sy := by
  by_cases hji : j = i
  · subst hji
    simp [wrR, lensX]
  · simp [wrR, lensX, hji]

theorem assembleS_frameX (nl cur lf rt : Nat) (σ : Store) (j : Nat) :
    ((assembleS lensX nl cur lf rt σ).2 j).sy = (σ j).sy := by
  simp [assembleS, sy_wrL_X, sy_wrR_X]

theorem splayS_frameX (cmp : Nat → Ordering) (nl : Nat) (fuel : Nat) :
    ∀ cur lf rt σ (p : Nat × Store), splayS lensX cmp nl fuel cur lf rt σ = some p →
      ∀ j, (p.2 j).sy = (σ j).sy := by
  induction fuel with
  | zero =>
    intro cur lf rt σ p h
    simp [splayS] at h
  | succ fuel ih =>
    intro cur lf rt σ p h j
    simp only [splayS] at h
    split at h
    · -- cmp cur = .lt
      split at h
      · rcases Option.some.inj h with rfl
        exact assembleS_frameX nl cur lf rt σ j
      · split at h
        · split at h
          · rcases Option.some.inj h with rfl
            simp [assembleS_frameX, sy_wrL_X, sy_wrR_X]
          · have h2 := ih _ _ _ _ _ h j
            simp only [sy_wrL_X, sy_wrR_X] at h2
            exact h2
        · have h2 := ih _ _ _ _ _ h j
          simp only [sy_wrL_X] at h2
          exact h2
    · -- cmp cur = .gt
      split at h
      · rcases Option.some.inj h with rfl
        exact assembleS_frameX nl cur lf rt σ j
      · split at h
        · split at h
          · rcases Option.some.inj h with rfl
            simp [assembleS_frameX, sy_wrL_X, sy_wrR_X]
          · have h2 := ih _ _ _ _ _ h j
            simp only [sy_wrL_X, sy_wrR_X] at h2
            exact h2
        · have h2 := ih _ _ _ _ _ h j
          simp only [sy_wrR_X] at h2
          exact h2
    · -- cmp cur = .eq
      rcases Option.some.inj h with rfl
      exact assembleS_frameX nl cur lf rt σ j

theorem splayRootS_frameX (cmp : Nat → Ordering) (nl fuel root : Nat)
    (σ : Store) (p : Nat × Store)
    (h : splayRootS lensX cmp nl fuel root σ = some p) :
    ∀ j, (p.2 j).sy = (σ j).sy := by
  intro j
  have h2 := splayS_frameX cmp nl fuel _ _ _ _ _ h j
  simpa [sy_wrL_X, sy_wrR_X] using h2

theorem insertS_frameX (cmp : Nat → Ordering) (nl fuel : Nat)
    (rt? : Option Nat) (nd : Nat) (σ : Store)
    (res : Bool × Option Nat × Store)
    (h : insertS lensX cmp nl fuel rt? nd σ = some res) :
    ∀ j, (res.2.2 j).sy = (σ j).sy := by
  intro j
  cases rt? with
  | none =>
    simp only [insertS] at h
    rcases Option.some.inj h with rfl
    rfl
  | some r =>
    rcases hsp : splayRootS lensX cmp nl fuel r σ with _ | ⟨c, σ1⟩
    · simp [insertS, hsp] at h
    · simp only [insertS, hsp] at h
      have hf := splayRootS_frameX cmp nl fuel r σ (c, σ1) hsp
      simp only at hf
      split at h <;> rcases Option.some.inj h with rfl
      · exact hf j
      · simp only [sy_wrL_X, sy_wrR_X]
        exact hf j
      · simp only [sy_wrL_X, sy_wrR_X]
        exact hf j

theorem popRootS_frameX (nl fuel : Nat) (rt? : Option Nat) (σ : Store)
    (res : Option Nat × Option Nat × Store)
    (h : popRootS lensX nl fuel rt? σ = some res) :
    ∀ j, (res.2.2 j).sy = (σ j).sy := by
  intro j
  cases rt? with
  | none =>
    simp only [popRootS] at h
    rcases Option.some.inj h with rfl
    rfl
  | some r =>
    rcases hrl : rdL lensX σ r with _ | rl
    · -- no left child
      simp only [popRootS, hrl] at h
      rcases Option.some.inj h with rfl
      simp only [sy_wrL_X, sy_wrR_X]
    · rcases hsp : splayRootS lensX maxCmpN nl fuel rl σ with _ | ⟨m, σ1⟩
      · simp [popRootS, hrl, hsp] at h
      · simp only [popRootS, hrl, hsp] at h
        have hf := splayRootS_frameX maxCmpN nl fuel rl σ (m, σ1) hsp
        simp only at hf
        rcases Option.some.inj h with rfl
        simp only [sy_wrL_X, sy_wrR_X]
        exact hf j

theorem removeS_frameX (cmp : Nat → Ordering) (nl fuel : Nat)
    (rt? : Option Nat) (σ : Store) (res : Option Nat × Option Nat × Store)
    (h : removeS lensX cmp nl fuel rt? σ = some res) :
    ∀ j, (res.2.2 j).sy = (σ j).sy := by
  intro j
  cases rt? with
  | none =>
    simp only [removeS] at h
    rcases Option.some.inj h with rfl
    rfl
  | some r =>
    rcases hsp : splayRootS lensX cmp nl fuel r σ with _ | ⟨c, σ1⟩
    · simp [removeS, hsp] at h
    · simp only [removeS, hsp] at h
      have hf := splayRootS_frameX cmp nl fuel r σ (c, σ1) hsp
      simp only at hf
      split at h
      · have h2 := popRootS_frameX nl fuel _ _ _ h j
        exact h2.trans (hf j)
      · rcases Option.some.inj h with rfl
        exact hf j

end FrameX

/-!  C9, congruence half: queries through `lensY` depend on the store only
through the records' `sy` components. -/

section CongrY

theorem rdL_congrY {σ1 σ2 : Store} (h : ∀ j, (σ1 j).sy = (σ2 j).sy) (i : Nat) :
    rdL lensY σ1 i = rdL lensY σ2 i := by
  simp [rdL, lensY, h i]

theorem rdR_congrY {σ1 σ2 : Store} (h : ∀ j, (σ1 j).sy = (σ2 j).sy) (i : Nat) :
    rdR lensY σ1 i = rdR lensY σ2 i := by
  simp [rdR, lensY, h i]

theorem sy_wrL_Y2 {σ1 σ2 : Store} (h : ∀ j, (σ1 j).sy = (σ2 j).sy)
    {v1 v2 : Option Nat} (hv : v1 = v2) (i : Nat) :
    ∀ j, ((wrL lensY σ1 i v1) j).sy = ((wrL lensY σ2 i v2) j).sy := by
  intro j
  subst hv
  by_cases hji : j = i
  · subst hji
    simp [wrL, lensY, h j]
  · simp [wrL, lensY, hji, h j]

theorem sy_wrR_Y2 {σ1 σ2 : Store} (h : ∀ j, (σ1 j).sy = (σ2 j).sy)
    {v1 v2 : Option Nat} (hv : v1 = v2) (i : Nat) :
    ∀ j, ((wrR lensY σ1 i v1) j).sy = ((wrR lensY σ2 i v2) j).sy := by
  intro j
  subst hv
  by_cases hji : j = i
  · subst hji
    simp [wrR, lensY, h j]
  · simp [wrR, lensY, hji, h j]

theorem assembleS_congrY {σ1 σ2 : Store} (h : ∀ j, (σ1 j).sy = (σ2 j).sy)
    (nl cur lf rt : Nat) :
    ∀ j, ((assembleS lensY nl cur lf rt σ1).2 j).sy
      = ((assembleS lensY nl cur lf rt σ2).2 j).sy := by
  have e1 := sy_wrR_Y2 h (rdL_congrY h cur) lf
  have e2 := sy_wrL_Y2 e1 (rdR_congrY e1 cur) rt
  have e3 := sy_wrL_Y2 e2 (rdR_congrY e2 nl) cur
  have e4 := sy_wrR_Y2 e3 (rdL_congrY e3 nl) cur
  exact e4

theorem splayS_congrY (cmp : Nat → Ordering) (nl : Nat) (fuel : Nat) :
    ∀ cur lf rt (σ1 σ2 : Store), (∀ j, (σ1 j).sy = (σ2 j).sy) →
      (splayS lensY cmp nl fuel cur lf rt σ1 = none ∧
        splayS lensY cmp nl fuel cur lf rt σ2 = none) ∨
      (∃ c σ1b σ2b, splayS lensY cmp nl fuel cur lf rt σ1 = some (c, σ1b) ∧
        splayS lensY cmp nl fuel cur lf rt σ2 = some (c, σ2b) ∧
        ∀ j, (σ1b j).sy = (σ2b j).sy) := by
  induction fuel with
  | zero =>
    intro cur lf rt σ1 σ2 h
    left
    exact ⟨rfl, rfl⟩
  | succ fuel ih =>
    intro cur lf rt σ1 σ2 h
    rcases hc : cmp cur with _ | _ | _
    · -- Less
      have hl' := (rdL_congrY h cur).symm
      rcases hl : rdL lensY σ1 cur with _ | curL
      · rw [hl] at hl'
        simp only [splayS, hc, hl, hl']
        right
        exact ⟨cur, _, _, rfl, rfl, assembleS_congrY h nl cur lf rt⟩
      · rw [hl] at hl'
        rcases hc2 : cmp curL with _ | _ | _
        · -- rotate right
          have e1 := sy_wrL_Y2 h (rdR_congrY h curL) cur
          have e2 := sy_wrR_Y2 e1 (rfl : some cur = some cur) curL
          have hl2' := (rdL_congrY e2 curL).symm
          rcases hl2 : rdL lensY (wrR lensY (wrL lensY σ1 cur (rdR lensY σ1 curL)) curL
              (some cur)) curL with _ | cl2
          · rw [hl2] at hl2'
            simp only [splayS, hc, hl, hl', hc2, hl2, hl2']
            right
            exact ⟨curL, _, _, rfl, rfl, assembleS_congrY e2 nl curL lf rt⟩
          · rw [hl2] at hl2'
            simp only [splayS, hc, hl, hl', hc2, hl2, hl2']
            exact ih cl2 lf curL _ _ (sy_wrL_Y2 e2 (rfl : some curL = some curL) rt)
        · simp only [splayS, hc, hl, hl', hc2]
          exact ih curL lf cur _ _ (sy_wrL_Y2 h (rfl : some cur = some cur) rt)
        · simp only [splayS, hc, hl, hl', hc2]
          exact ih curL lf cur _ _ (sy_wrL_Y2 h (rfl : some cur = some cur) rt)
    · -- Equal
      simp only [splayS, hc]
      right
      exact ⟨cur, _, _, rfl, rfl, assembleS_congrY h nl cur lf rt⟩
    · -- Greater
      have hr' := (rdR_congrY h cur).symm
      rcases hr : rdR lensY σ1 cur with _ | curR
      · rw [hr] at hr'
        simp only [splayS, hc, hr, hr']
        right
        exact ⟨cur, _, _, rfl, rfl, assembleS_congrY h nl cur lf rt⟩
      · rw [hr] at hr'
        rcases hc2 : cmp curR with _ | _ | _
        · simp only [splayS, hc, hr, hr', hc2]
          exact ih curR cur rt _ _ (sy_wrR_Y2 h (rfl : some cur = some cur) lf)
        · simp only [splayS, hc, hr, hr', hc2]
          exact ih curR cur rt _ _ (sy_wrR_Y2 h (rfl : some cur = some cur) lf)
        · -- rotate left
          have e1 := sy_wrR_Y2 h (rdL_congrY h curR) cur
          have e2 := sy_wrL_Y2 e1 (rfl : some cur = some cur) curR
          have hr2' := (rdR_congrY e2 curR).symm
          rcases hr2 : rdR lensY (wrL lensY (wrR lensY σ1 cur (rdL lensY σ1 curR)) curR
              (some cur)) curR with _ | cr2
          · rw [hr2] at hr2'
            simp only [splayS, hc, hr, hr', hc2, hr2, hr2']
            right
            exact ⟨curR, _, _, rfl, rfl, assembleS_congrY e2 nl curR lf rt⟩
          · rw [hr2] at hr2'
            simp only [splayS, hc, hr, hr', hc2, hr2, hr2']
            exact ih cr2 curR rt _ _ (sy_wrR_Y2 e2 (rfl : some curR = some curR) lf)

theorem splayRootS_congrY (cmp : Nat → Ordering) (nl fuel root : Nat)
    {σ1 σ2 : Store} (h : ∀ j, (σ1 j).sy = (σ2 j).sy) :
    (splayRootS lensY cmp nl fuel root σ1 = none ∧
      splayRootS lensY cmp nl fuel root σ2 = none) ∨
    (∃ c σ1b σ2b, splayRootS lensY cmp nl fuel root σ1 = some (c, σ1b) ∧
      splayRootS lensY cmp nl fuel root σ2 = some (c, σ2b) ∧
      ∀ j, (σ1b j).sy = (σ2b j).sy) := by
  have h0 := sy_wrR_Y2 (sy_wrL_Y2 h (rfl : (none : Option Nat) = none) nl)
    (rfl : (none : Option Nat) = none) nl
  exact splayS_congrY cmp nl fuel root nl nl _ _ h0

theorem findS_congrY (cmp : Nat → Ordering) (nl fuel : Nat) (rt? : Option Nat)
    {σ1 σ2 : Store} (h : ∀ j, (σ1 j).sy = (σ2 j).sy) :
    qres (findS lensY cmp nl fuel rt? σ1) = qres (findS lensY cmp nl fuel rt? σ2) := by
  cases rt? with
  | none => rfl
  | some r =>
    rcases splayRootS_congrY cmp nl fuel r h with ⟨h1, h2⟩ | ⟨c, s1, s2, h1, h2, -⟩ <;>
      simp [findS, h1, h2, qres]

theorem minS_congrY (nl fuel : Nat) (rt? : Option Nat)
    {σ1 σ2 : Store} (h : ∀ j, (σ1 j).sy = (σ2 j).sy) :
    qres (minS lensY nl fuel rt? σ1) = qres (minS lensY nl fuel rt? σ2) := by
  cases rt? with
  | none => rfl
  | some r =>
    rcases splayRootS_congrY minCmpN nl fuel r h with ⟨h1, h2⟩ | ⟨c, s1, s2, h1, h2, -⟩ <;>
      simp [minS, h1, h2, qres]

theorem maxS_congrY (nl fuel : Nat) (rt? : Option Nat)
    {σ1 σ2 : Store} (h : ∀ j, (σ1 j).sy = (σ2 j).sy) :
    qres (maxS lensY nl fuel rt? σ1) = qres (maxS lensY nl fuel rt? σ2) := by
  cases rt? with
  | none => rfl
  | some r =>
    rcases splayRootS_congrY maxCmpN nl fuel r h with ⟨h1, h2⟩ | ⟨c, s1, s2, h1, h2, -⟩ <;>
      simp [maxS, h1, h2, qres]

theorem walkS_congrY (fuel : Nat) :
    ∀ (r? : Option Nat) (σ1 σ2 : Store), (∀ j, (σ1 j).sy = (σ2 j).sy) →
      walkS lensY fuel r? σ1 = walkS lensY fuel r? σ2 := by
  induction fuel with
  | zero =>
    intro r? σ1 σ2 h
    rfl
  | succ fuel ih =>
    intro r? σ1 σ2 h
    cases r? with
    | none => rfl
    | some i =>
      simp only [walkS]
      rw [← rdL_congrY h i, ← rdR_congrY h i,
        ih (rdL lensY σ1 i) σ1 σ2 h, ih (rdR lensY σ1 i) σ1 σ2 h]

end CongrY

/-- C9: over records each embedding two link nodes (one per index tag),
inserting into or removing from the first tag's tree never changes the
result of any query — find, min, max, or walk — on the second tag's tree
over the same store of records. -/
theorem index_independence_C9 (cmpX cmpY : Nat → Ordering)
    (nlX nlY fX fq : Nat) (xroot yroot : Option Nat) (nd : Nat) (σ : Store) :
    (∀ res, insertS lensX cmpX nlX fX xroot nd σ = some res →
      qres (findS lensY cmpY nlY fq yroot res.2.2)
          = qres (findS lensY cmpY nlY fq yroot σ) ∧
      qres (minS lensY nlY fq yroot res.2.2)
          = qres (minS lensY nlY fq yroot σ) ∧
      qres (maxS lensY nlY fq yroot res.2.2)
          = qres (maxS lensY nlY fq yroot σ) ∧
      walkS lensY fq yroot res.2.2 = walkS lensY fq yroot σ) ∧
    (∀ res, removeS lensX cmpX nlX fX xroot σ = some res →
      qres (findS lensY cmpY nlY fq yroot res.2.2)
          = qres (findS lensY cmpY nlY fq yroot σ) ∧
      qres (minS lensY nlY fq yroot res.2.2)
          = qres (minS lensY nlY fq yroot σ) ∧
      qres (maxS lensY nlY fq yroot res.2.2)
          = qres (maxS lensY nlY fq yroot σ) ∧
      walkS lensY fq yroot res.2.2 = walkS lensY fq yroot σ) := by
  constructor
  · intro res h
    have hf := insertS_frameX cmpX nlX fX xroot nd σ res h
    exact ⟨findS_congrY cmpY nlY fq yroot hf, minS_congrY nlY fq yroot hf,
      maxS_congrY nlY fq yroot hf, walkS_congrY fq yroot _ _ hf⟩
  · intro res h
    have hf := removeS_frameX cmpX nlX fX xroot σ res h
    exact ⟨findS_congrY cmpY nlY fq yroot hf, minS_congrY nlY fq yroot hf,
      maxS_congrY nlY fq yroot hf, walkS_congrY fq yroot _ _ hf⟩

/-- C9 witness: two records; record 0 is the root of the y-index, record 1 is
inserted into the (empty) x-index; the y-queries are unchanged. -/
theorem index_independence_C9_witness :
    qres (findS lensY (fun _ => Ordering.eq) 2 3 (some 0)
        ((true, some 1, fun _ => ⟨(none, none), (none, none)⟩) : Bool × Option Nat × Store).2.2)
      = qres (findS lensY (fun _ => Ordering.eq) 2 3 (some 0)
        (fun _ => ⟨(none, none), (none, none)⟩)) ∧
    qres (minS lensY 2 3 (some 0)
        ((true, some 1, fun _ => ⟨(none, none), (none, none)⟩) : Bool × Option Nat × Store).2.2)
      = qres (minS lensY 2 3 (some 0)
        (fun _ => ⟨(none, none), (none, none)⟩)) ∧
    qres (maxS lensY 2 3 (some 0)
        ((true, some 1, fun _ => ⟨(none, none), (none, none)⟩) : Bool × Option Nat × Store).2.2)
      = qres (maxS lensY 2 3 (some 0)
        (fun _ => ⟨(none, none), (none, none)⟩)) ∧
    walkS lensY 3 (some 0)
        ((true, some 1, fun _ => ⟨(none, none), (none, none)⟩) : Bool × Option Nat × Store).2.2
      = walkS lensY 3 (some 0) (fun _ => ⟨(none, none), (none, none)⟩) :=
  (index_independence_C9 (fun _ => Ordering.eq) (fun _ => Ordering.eq) 2 2 3 3
    none (some 0) 1 (fun _ => ⟨(none, none), (none, none)⟩)).1
    (true, some 1, fun _ => ⟨(none, none), (none, none)⟩) rfl

end IST
